import Mathlib

set_option maxRecDepth 4000

/-!
Verification of two LLVM loop passes against their specification:
`SimpleLICM.cpp` (loop-invariant code motion) and
`DerivedInductionVars.cpp` (derived induction-variable rewriting).

The program graph is embedded shallowly: instructions are records carrying
their id, opcode and operand list; basic blocks are ordered instruction
lists; a function is a block list.  The external analyses the passes
consume (dominator tree, ScalarEvolution, SCEVExpander, loop info) are
modelled as read-only oracles, exactly at the interface the source uses.
-/

namespace LoopOpt

/-- Operand values: a reference to another instruction by id, or a
non-instruction value (constants, arguments).  Both passes look at operands
only through `dyn_cast<Instruction>`, so all non-instruction operands
behave alike and are collapsed into `const`. -/
inductive Value where
  | inst : Nat → Value
  | const : Int → Value
deriving DecidableEq, Repr

/-- Opcodes the passes distinguish: `phi` (isa<PHINode>), the `mul`/`add`
the rewriter synthesizes via IRBuilder, and everything else. -/
inductive Op where
  | phi
  | mul
  | add
  | other : Nat → Op
deriving DecidableEq, Repr

/-- An IR instruction.  `mayRWMem` embeds `mayReadOrWriteMemory()`,
`safeToSpec` embeds `isSafeToSpeculativelyExecute`, `isIntTy` embeds
`getType()->isIntegerTy()`; these are attributes of the instruction the
passes only ever query. -/
structure Inst where
  id : Nat
  op : Op
  isIntTy : Bool
  mayRWMem : Bool
  safeToSpec : Bool
  operands : List Value
deriving DecidableEq, Repr

/-- isa<PHINode>. -/
def Inst.isPHI (I : Inst) : Bool := I.op == Op.phi

/-- A basic block: an id and its ordered instruction list.  The last
instruction of a nonempty block is its terminator. -/
structure Block where
  id : Nat
  insts : List Inst
deriving DecidableEq, Repr

/-- A function: its list of basic blocks. -/
structure Func where
  blocks : List Block
deriving DecidableEq, Repr

/-- All instructions of the function, in block order. -/
def Func.allInsts (F : Func) : List Inst := (F.blocks.map Block.insts).flatten

/-- Look a block up by id. -/
def findBlock (F : Func) (bid : Nat) : Option Block :=
  F.blocks.find? (fun B => B.id == bid)

/-- Look an instruction up by id (the unique record carrying that id,
when ids are duplicate-free). -/
def findInst (F : Func) (i : Nat) : Option Inst :=
  F.allInsts.find? (fun I => I.id == i)

/-- `getParent()` of an instruction id: the id of the block holding it. -/
def parentOf (F : Func) (i : Nat) : Option Nat :=
  (F.blocks.find? (fun B => B.insts.any (fun I => I.id == i))).map Block.id

/-- The loop structure handed to SimpleLICM by LoopInfo: the loop's block
ids (header first, as `getBlocks` lists them), `getLoopPreheader()` and
`getExitBlocks`.  All three are read-only analysis inputs. -/
structure LICMLoop where
  blockIds : List Nat
  preheaderId : Option Nat
  exitBlockIds : List Nat
deriving DecidableEq, Repr

/-- `L.contains(Inst)`: the instruction's parent block belongs to the
loop. -/
def containsInst (F : Func) (L : LICMLoop) (i : Nat) : Bool :=
  match parentOf F i with
  | some b => L.blockIds.contains b
  | none => false

/-- The loop's instructions in the iteration order of
`for (auto* BB : L.getBlocks()) for (auto& I : *BB)`. -/
def loopInsts (F : Func) (L : LICMLoop) : List Inst :=
  (L.blockIds.map (fun bid =>
    match findBlock F bid with
    | some B => B.insts
    | none => [])).flatten

/-- Seed filter of SimpleLICM's first scan (lines 43-63): not a PHI, no
memory access, and no operand that is an instruction inside the loop. -/
def seedOK (F : Func) (L : LICMLoop) (I : Inst) : Bool :=
  !I.isPHI && !I.mayRWMem &&
    I.operands.all (fun v =>
      match v with
      | Value.inst oid => !containsInst F L oid
      | Value.const _ => true)

/-- The seed instructions, in scan order. -/
def seedPhase (F : Func) (L : LICMLoop) : List Inst :=
  (loopInsts F L).filter (seedOK F L)

/-- `I->users()`: every instruction having `I` among its operands. -/
def usersOf (F : Func) (i : Nat) : List Inst :=
  F.allInsts.filter (fun U => U.operands.contains (Value.inst i))

/-- The worklist loop's admission test for a user `U` (lines 73-86): in
the loop, not already in the invariant set, not a PHI, no memory access,
and every in-loop instruction operand already in the set. -/
def userEligible (F : Func) (L : LICMLoop) (set : List Nat) (U : Inst) : Bool :=
  containsInst F L U.id && !set.contains U.id && !U.isPHI && !U.mayRWMem &&
    U.operands.all (fun v =>
      match v with
      | Value.inst oid => !containsInst F L oid || set.contains oid
      | Value.const _ => true)

/-- Process the users of one popped instruction in order, growing the
invariant set as the source's inner loop does (the set consulted for each
user is the set as of that user's turn).  Returns the grown set and the
ids newly pushed, in push order. -/
def processUsers (F : Func) (L : LICMLoop) (set : List Nat) :
    List Inst → List Nat × List Nat
  | [] => (set, [])
  | U :: Us =>
    if userEligible F L set U then
      let r := processUsers F L (set ++ [U.id]) Us
      (r.1, U.id :: r.2)
    else
      processUsers F L set Us

/-- The worklist loop (lines 66-93).  The worklist is a stack
(`pop_back_val` pops the most recently pushed id), represented head-first.
`fuel` is an upper bound on the number of pops; every push is of an id not
yet in the set, so `F.allInsts.length` pops always suffice (proved below),
making the bound an artifact of totality, not of the algorithm. -/
def closureLoop (F : Func) (L : LICMLoop) :
    List Nat → List Nat → Nat → List Nat
  | set, [], _ => set
  | set, _ :: _, 0 => set
  | set, i :: rest, fuel + 1 =>
    let r := processUsers F L set (usersOf F i)
    closureLoop F L r.1 (r.2.reverse ++ rest) fuel

/-- The invariant set at the end of the worklist fixed point, as a
duplicate-free id list (`SmallPtrSet` holds each instruction once). -/
def licmInvariantSet (F : Func) (L : LICMLoop) : List Nat :=
  let seeds := (seedPhase F L).map Inst.id
  closureLoop F L seeds seeds.reverse F.allInsts.length

/-- `DT.dominates(Instruction* I, BasicBlock* EB)`: an instruction does
not dominate the entry of its own block; otherwise block-level dominance
of its parent, queried on the dominator-tree oracle `dom`. -/
def instDominatesBlock (dom : Nat → Nat → Bool) (F : Func) (i e : Nat) : Bool :=
  match parentOf F i with
  | some b => !(b == e) && dom b e
  | none => false

/-- `dominatesAllLoopExits` (lines 111-118). -/
def dominatesAllLoopExits (dom : Nat → Nat → Bool) (F : Func) (L : LICMLoop)
    (i : Nat) : Bool :=
  L.exitBlockIds.all (fun e => instDominatesBlock dom F i e)

/-- Insert an instruction immediately before the last element of a list:
`moveBefore(Preheader->getTerminator())` places the moved instruction
right before the preheader's terminator. -/
def insertBeforeLast (I : Inst) : List Inst → List Inst
  | [] => [I]
  | [t] => [I, t]
  | x :: y :: xs => x :: insertBeforeLast I (y :: xs)

/-- Unlink an instruction id from every block. -/
def removeInstEverywhere (F : Func) (i : Nat) : Func :=
  ⟨F.blocks.map (fun B => ⟨B.id, B.insts.filter (fun I => !(I.id == i))⟩)⟩

/-- `I->moveBefore(Preheader->getTerminator())`: unlink the instruction
and re-insert it before the terminator of block `ph`. -/
def moveBeforeTerm (F : Func) (ph : Nat) (i : Nat) : Func :=
  match findInst F i with
  | none => F
  | some I =>
    let F1 := removeInstEverywhere F i
    ⟨F1.blocks.map (fun B =>
      if B.id == ph then ⟨B.id, insertBeforeLast I B.insts⟩ else B)⟩

/-- One iteration of the hoisting loop (lines 101-106) on instruction id
`i`: move it iff it is safe to speculatively execute and its (current)
definition point dominates all loop exits.  The second component logs the
ids actually hoisted, mirroring the pass's "Hoisting:" trace. -/
def hoistStep (dom : Nat → Nat → Bool) (L : LICMLoop) (ph : Nat)
    (acc : Func × List Nat) (i : Nat) : Func × List Nat :=
  match findInst acc.1 i with
  | none => acc
  | some I =>
    if I.safeToSpec && dominatesAllLoopExits dom acc.1 L i then
      (moveBeforeTerm acc.1 ph i, acc.2 ++ [i])
    else
      acc

/-- The host-facing result of a pass run. -/
inductive Preserved where
  | all
  | none
deriving DecidableEq, Repr

/-- `SimpleLICM::run`.  `order` is the iteration order of the unordered
`SmallPtrSet` over which the hoisting loop runs; it is unspecified by the
source, so theorems quantify over every enumeration of
`licmInvariantSet`.  Without a preheader the pass returns immediately with
`PreservedAnalyses::all()`; otherwise it hoists and unconditionally
reports `PreservedAnalyses::none()`. -/
def licmRun (dom : Nat → Nat → Bool) (F : Func) (L : LICMLoop)
    (order : List Nat) : Func × List Nat × Preserved :=
  match L.preheaderId with
  | Option.none => (F, [], Preserved.all)
  | some ph =>
    let r := order.foldl (hoistStep dom L ph) (F, [])
    (r.1, r.2, Preserved.none)

/-! ### DerivedInductionVars -/

/-- ScalarEvolution's classification of a value, at the granularity the
pass inspects it: a constant (`SCEVConstant`), an add recurrence
(`SCEVAddRecExpr`, carrying its loop, start, step, and whether it is
affine), or anything else.  SCEVs are uniqued by ScalarEvolution, so the
source's pointer comparison `DerivedIV_SCEV == BasicIV_SCEV` is
structural equality here. -/
inductive SCEVExpr where
  | scConst : Int → SCEVExpr
  | addRec : Nat → SCEVExpr → SCEVExpr → Bool → SCEVExpr
  | scUnknown : Nat → SCEVExpr
deriving DecidableEq, Repr

/-- The ScalarEvolution / SCEVExpander oracle: `scevOf` is
`SE.getSCEV` keyed by value id, `safeToExpand` is
`Expander.isSafeToExpand`, and `expandAt` is `Expander.expandCodeFor` at
the preheader insertion point: given a SCEV and the current fresh-id
counter it either fails or returns the instructions it materializes, the
resulting value, and the advanced counter. -/
structure SEOracle where
  scevOf : Nat → SCEVExpr
  safeToExpand : SCEVExpr → Bool
  expandAt : SCEVExpr → Nat → Option (List Inst × Value × Nat)

/-- A loop as the rewriter sees it: its identity (for
`AR->getLoop() == L`), header block id, `getLoopPreheader()`,
`getCanonicalInductionVariable()` (the id of the 0,+1 counter PHI when one
exists), and the immediate sub-loops. -/
inductive RLoop where
  | mk : Nat → Nat → Option Nat → Option Nat → List RLoop → RLoop

def RLoop.loopId : RLoop → Nat
  | RLoop.mk l _ _ _ _ => l

def RLoop.headerId : RLoop → Nat
  | RLoop.mk _ h _ _ _ => h

def RLoop.preheaderId : RLoop → Option Nat
  | RLoop.mk _ _ p _ _ => p

def RLoop.canonicalIV : RLoop → Option Nat
  | RLoop.mk _ _ _ c _ => c

def RLoop.subLoops : RLoop → List RLoop
  | RLoop.mk _ _ _ _ s => s

/-- Mutable pass state: the program graph and the fresh-id counter from
which newly created instructions draw their ids. -/
structure RState where
  F : Func
  fresh : Nat
deriving DecidableEq, Repr

/-- Insert new instructions immediately before the instruction with id
`anchor` (IRBuilder positioned at `HeaderInsert`).  If the anchor is
absent the list is left unchanged (the source would have dereferenced a
stale pointer; the anchor is never deleted during a scan, so this case is
unreachable in pass runs). -/
def insertBeforeId (anchor : Nat) (news : List Inst) : List Inst → List Inst
  | [] => []
  | x :: xs =>
    if x.id == anchor then news ++ x :: xs
    else x :: insertBeforeId anchor news xs

/-- Apply `insertBeforeId` inside block `bid` of the function. -/
def insertInBlock (F : Func) (bid : Nat) (anchor : Nat) (news : List Inst) : Func :=
  ⟨F.blocks.map (fun B =>
    if B.id == bid then ⟨B.id, insertBeforeId anchor news B.insts⟩ else B)⟩

/-- Insert a run of expanded instructions before the last instruction of
block `bid` (`expandCodeFor` materializes at `PreheaderInsert`, the
preheader's terminator). -/
def insertRunBeforeTerm (F : Func) (bid : Nat) (news : List Inst) : Func :=
  ⟨F.blocks.map (fun B =>
    if B.id == bid then ⟨B.id, news.foldl (fun l I => insertBeforeLast I l) B.insts⟩
    else B)⟩

/-- Operand substitution on a single instruction: every operand
referencing `old` is redirected to `newv`. -/
def rauwInst (old : Nat) (newv : Value) (I : Inst) : Inst :=
  { I with operands := I.operands.map (fun v =>
      if v == Value.inst old then newv else v) }

/-- `PN.replaceAllUsesWith(NewVal)`: rewrite every operand referencing
`old` to `newv`, across the whole function. -/
def rauwF (F : Func) (old : Nat) (newv : Value) : Func :=
  ⟨F.blocks.map (fun B => ⟨B.id, B.insts.map (rauwInst old newv)⟩)⟩

/-- `Dead->eraseFromParent()`: remove the instruction id from every
block. -/
def eraseInstEverywhere (F : Func) (i : Nat) : Func :=
  ⟨F.blocks.map (fun B => ⟨B.id, B.insts.filter (fun I => !(I.id == i))⟩)⟩

/-- `B.CreateMul(BasicIV, StepVal, PN.getName() + ".stepmul")`: the
synthesized multiply.  Its type is the PHI's integer type; a freshly
created binary operator neither touches memory nor traps. -/
def mkStepMul (fresh : Nat) (ity : Bool) (bIV : Nat) (stepV : Value) : Inst :=
  ⟨fresh, Op.mul, ity, false, true, [Value.inst bIV, stepV]⟩

/-- `B.CreateAdd(StartVal, Mul, PN.getName() + ".expanded")`: the
synthesized add over the multiply. -/
def mkExpanded (fresh : Nat) (ity : Bool) (startV : Value) (mulId : Nat) : Inst :=
  ⟨fresh, Op.add, ity, false, true, [startV, Value.inst mulId]⟩

/-- Accumulator for the header-PHI scan: pass state, the `DeadPHIs`
collected so far, and `loop_flag`. -/
abbrev ScanAcc := RState × List Nat × Bool

/-- The body of the rewrite once start and step values are resolved
(lines 135-143): build the multiply and add before the header anchor,
redirect every use of the PHI, record it dead, set the flag. -/
def applyRewrite (hdrId anchor : Nat) (bIV : Nat) (PN : Inst)
    (startV stepV : Value) (st : RState) (dead : List Nat) : ScanAcc :=
  let mulI := mkStepMul st.fresh PN.isIntTy bIV stepV
  let addI := mkExpanded (st.fresh + 1) PN.isIntTy startV mulI.id
  let F1 := insertInBlock st.F hdrId anchor [mulI, addI]
  let F2 := rauwF F1 PN.id (Value.inst addI.id)
  (⟨F2, st.fresh + 2⟩, dead ++ [PN.id], true)

/-- Processing of a single header PHI (lines 72-148).  Mirrors the
source's guard cascade: integer type; an affine `SCEVAddRecExpr` of this
loop; a canonical induction variable exists; safe to expand and not the
canonical counter itself; start and step resolved to constants or, when a
preheader exists, materialized by the expander (each failure skipping the
PHI, with any instructions already materialized left in place). -/
def processPhi (SE : SEOracle) (lid : Nat) (canIV : Option Nat)
    (phId : Option Nat) (hdrId anchor : Nat) (acc : ScanAcc) (PN : Inst) :
    ScanAcc :=
  let (st, dead, flag) := acc
  if !PN.isIntTy then acc
  else
    let S := SE.scevOf PN.id
    match S with
    | SCEVExpr.addRec arLoop start step affine =>
      if arLoop == lid && affine then
        match canIV with
        | Option.none => acc
        | some bIV =>
          if !SE.safeToExpand S || S == SE.scevOf bIV then acc
          else
            let startC : Option Value :=
              match start with
              | SCEVExpr.scConst v => some (Value.const v)
              | _ => Option.none
            let stepC : Option Value :=
              match step with
              | SCEVExpr.scConst v => some (Value.const v)
              | _ => Option.none
            match startC, stepC with
            | some sv, some tv => applyRewrite hdrId anchor bIV PN sv tv st dead
            | startC, stepC =>
              match phId with
              | Option.none => acc
              | some ph =>
                match startC with
                | some sv =>
                  match SE.expandAt step st.fresh with
                  | Option.none => acc
                  | some (newTs, tv, f2) =>
                    let st2 : RState := ⟨insertRunBeforeTerm st.F ph newTs, f2⟩
                    applyRewrite hdrId anchor bIV PN sv tv st2 dead
                | Option.none =>
                  match SE.expandAt start st.fresh with
                  | Option.none => acc
                  | some (newSs, sv, f1) =>
                    let st1 : RState := ⟨insertRunBeforeTerm st.F ph newSs, f1⟩
                    match stepC with
                    | some tv => applyRewrite hdrId anchor bIV PN sv tv st1 dead
                    | Option.none =>
                      match SE.expandAt step st1.fresh with
                      | Option.none => (st1, dead, flag)
                      | some (newTs, tv, f2) =>
                        let st2 : RState := ⟨insertRunBeforeTerm st1.F ph newTs, f2⟩
                        applyRewrite hdrId anchor bIV PN sv tv st2 dead
      else acc
    | _ => acc

/-- The scan over the header's PHIs followed by the batched deletion of
`DeadPHIs` (lines 72-154): uses are redirected during the scan, the dead
originals are erased only after the scan completes. -/
def rewriteHeaderPhis (SE : SEOracle) (lid : Nat) (canIV : Option Nat)
    (phId : Option Nat) (hdrId anchor : Nat) (phis : List Inst)
    (st : RState) : RState × List Nat × Bool :=
  let r := phis.foldl (processPhi SE lid canIV phId hdrId anchor) (st, [], false)
  (⟨r.2.1.foldl eraseInstEverywhere r.1.F, r.1.fresh⟩, r.2.1, r.2.2)

mutual

/-- `DerivedInductionVars::analyzeLoopRecursively` (lines 46-159): bail
out if the header is missing or has no non-PHI instruction; otherwise
scan the header PHIs, erase the dead ones, recurse into every immediate
sub-loop, and return `loop_flag` - which records only whether THIS loop
changed, the recursive results being discarded by the source. -/
def analyzeLoopRecursively (SE : SEOracle) (st : RState) (L : RLoop) :
    RState × Bool :=
  match L with
  | RLoop.mk lid hdrId phId canIV subs =>
    match findBlock st.F hdrId with
    | Option.none => (st, false)
    | some hdr =>
      match hdr.insts.find? (fun I => !I.isPHI) with
      | Option.none => (st, false)
      | some anchor =>
        let phis := hdr.insts.takeWhile Inst.isPHI
        let r := rewriteHeaderPhis SE lid canIV phId hdrId anchor.id phis st
        let st2 := analyzeSubLoops SE r.1 subs
        (st2, r.2.2)

/-- The sub-loop recursion of line 156: each call's returned flag is
dropped on the floor; only the mutated state is threaded through. -/
def analyzeSubLoops (SE : SEOracle) (st : RState) : List RLoop → RState
  | [] => st
  | l :: ls => analyzeSubLoops SE (analyzeLoopRecursively SE st l).1 ls

end

/-- `DerivedInductionVars::run` (lines 29-44): visit every top-level
loop, OR the per-loop results together, and report
`PreservedAnalyses::none()` iff some top-level call returned true. -/
def derivedIVRun (SE : SEOracle) (F : Func) (fresh : Nat)
    (topLoops : List RLoop) : Func × Preserved :=
  let r := topLoops.foldl
    (fun (acc : RState × Bool) L =>
      let p := analyzeLoopRecursively SE acc.1 L
      (p.1, acc.2 || p.2))
    (⟨F, fresh⟩, false)
  (r.1.F, if r.2 then Preserved.none else Preserved.all)

/-! ### Denotational layer for induction values

The value a header PHI with recurrence `\x7bstart,+,step\x7d` takes on
iteration `i` of its loop, and an evaluator for the synthesized
instructions, used to state that the replacement computes the same value
stream. -/

/-- The iteration-indexed value of an affine recurrence: `start` on entry,
advancing by `step` each time around the back edge. -/
def phiSeq (start step : Int) : Nat → Int
  | 0 => start
  | n + 1 => phiSeq start step n + step

/-- Evaluate an operand in an environment assigning integer values to
instruction ids. -/
def evalValue (env : Nat → Int) : Value → Int
  | Value.inst i => env i
  | Value.const v => v

/-- Evaluate a synthesized binary instruction. -/
def evalInst (env : Nat → Int) (I : Inst) : Option Int :=
  match I.op, I.operands with
  | Op.mul, [a, b] => some (evalValue env a * evalValue env b)
  | Op.add, [a, b] => some (evalValue env a + evalValue env b)
  | _, _ => Option.none

/-! ### Specification-level predicates -/

/-- The closure predicate of the specification: an instruction of the
loop is invariant when it is no merge-point, touches no memory, and every
operand that is an in-loop instruction is itself invariant.  As an
inductive predicate this is exactly the least fixed point grown from the
instructions with no in-loop operands. -/
inductive LInv (F : Func) (L : LICMLoop) : Nat → Prop where
  | intro (I : Inst) (hmem : I ∈ loopInsts F L) (hphi : I.isPHI = false)
      (hrw : I.mayRWMem = false)
      (hops : ∀ oid, Value.inst oid ∈ I.operands → containsInst F L oid = true →
        LInv F L oid) :
      LInv F L I.id

/-- Well-formedness of a function/loop pair, as LLVM guarantees it:
values are uniquely identified, the loop's instruction ids are
duplicate-free, loop instructions belong to the function, and
`L.contains` agrees with membership in the loop's blocks. -/
def WFL (F : Func) (L : LICMLoop) : Prop :=
  (F.allInsts.map Inst.id).Nodup ∧
  ((loopInsts F L).map Inst.id).Nodup ∧
  (∀ I, I ∈ loopInsts F L → I ∈ F.allInsts) ∧
  (∀ I, I ∈ F.allInsts → (containsInst F L I.id = true ↔ I ∈ loopInsts F L))

instance (F : Func) (L : LICMLoop) : Decidable (WFL F L) := by
  unfold WFL
  infer_instance

/-- The hoisting test of lines 102, evaluated against the pre-pass graph:
the instruction exists, is safe to execute speculatively, and its
original definition point dominates every loop exit.  The pass queries
the graph current at each iteration, but an instruction's parent is
unchanged until it itself is moved, so this static predicate describes
each check (proved below). -/
def hoistCond (dom : Nat → Nat → Bool) (F : Func) (L : LICMLoop) (i : Nat) : Bool :=
  match findInst F i with
  | some I => I.safeToSpec && dominatesAllLoopExits dom F L i
  | Option.none => false

/-- The claim's hoisting condition (b): the definition point AFTER the
move - the preheader - dominates every exit block of the loop. -/
def preheaderDominatesExits (dom : Nat → Nat → Bool) (L : LICMLoop) (ph : Nat) : Bool :=
  L.exitBlockIds.all (fun e => !(ph == e) && dom ph e)

/-- The record the hoisting loop moves for an id, when both checks of
line 102 pass against the pre-pass graph. -/
def hoistChoice (dom : Nat → Nat → Bool) (F : Func) (L : LICMLoop) (i : Nat) :
    Option Inst :=
  match findInst F i with
  | some I =>
    if I.safeToSpec && dominatesAllLoopExits dom F L i then some I else Option.none
  | Option.none => Option.none

/-- The records the hoisting loop actually moves, in iteration order. -/
def hoistedRecs (dom : Nat → Nat → Bool) (F : Func) (L : LICMLoop)
    (order : List Nat) : List Inst :=
  order.filterMap (hoistChoice dom F L)

/-- A header PHI on which `processPhi` returns without touching the
graph: non-integer type, not an affine recurrence of this loop, no
canonical counter, unsafe to expand or equal to the canonical counter's
recurrence, or in need of materialization with no preheader available.
Only a PHI that passes every guard with constant start and step, or one
that reaches the expander, falls outside this predicate. -/
def phiSkipsEarly (SE : SEOracle) (lid : Nat) (canIV : Option Nat)
    (hasPH : Bool) (PN : Inst) : Bool :=
  if !PN.isIntTy then true
  else
    match SE.scevOf PN.id with
    | SCEVExpr.addRec arLoop start step affine =>
      if arLoop == lid && affine then
        match canIV with
        | Option.none => true
        | some bIV =>
          if !SE.safeToExpand (SE.scevOf PN.id) ||
              SE.scevOf PN.id == SE.scevOf bIV then true
          else
            match start, step with
            | SCEVExpr.scConst _, SCEVExpr.scConst _ => false
            | _, _ => !hasPH
      else true
    | _ => true

/-- A header PHI that is already simplified in the sense of the
idempotence claim: non-integer, not an affine recurrence belonging to
this loop, or the loop's canonical counter itself. -/
def phiAlreadySimple (SE : SEOracle) (lid : Nat) (canIV : Option Nat)
    (PN : Inst) : Bool :=
  !PN.isIntTy ||
  (match SE.scevOf PN.id with
   | SCEVExpr.addRec arLoop _ _ affine => !(arLoop == lid && affine)
   | _ => true) ||
  (match canIV with
   | some b => PN.id == b
   | Option.none => false)

mutual

/-- Every header PHI of this loop and of every descendant is skipped
before any graph mutation. -/
def nestUntouched (SE : SEOracle) (F : Func) : RLoop → Bool
  | RLoop.mk lid hdrId phId canIV subs =>
    (match findBlock F hdrId with
     | Option.none => true
     | some hdr =>
       match hdr.insts.find? (fun I => !I.isPHI) with
       | Option.none => true
       | some _ =>
         (hdr.insts.takeWhile Inst.isPHI).all
           (phiSkipsEarly SE lid canIV phId.isSome)) &&
    nestUntouchedList SE F subs

def nestUntouchedList (SE : SEOracle) (F : Func) : List RLoop → Bool
  | [] => true
  | l :: ls => nestUntouched SE F l && nestUntouchedList SE F ls

end

mutual

/-- The idempotence claim's hypothesis, loop-nest wide: every remaining
header merge-point of every loop in the nest is the canonical counter or
a non-affine / non-integer value. -/
def simplifiedNest (SE : SEOracle) (F : Func) : RLoop → Bool
  | RLoop.mk lid hdrId _ canIV subs =>
    (match findBlock F hdrId with
     | Option.none => true
     | some hdr =>
       match hdr.insts.find? (fun I => !I.isPHI) with
       | Option.none => true
       | some _ =>
         (hdr.insts.takeWhile Inst.isPHI).all
           (phiAlreadySimple SE lid canIV)) &&
    simplifiedNestList SE F subs

def simplifiedNestList (SE : SEOracle) (F : Func) : List RLoop → Bool
  | [] => true
  | l :: ls => simplifiedNest SE F l && simplifiedNestList SE F ls

end

/-- Well-behavedness of the expander oracle: materialized instructions
draw their ids from the fresh counter (monotonically advanced), and
neither they nor the returned value reference any of the `banned` ids -
instantiated with the header's PHI ids, which never dominate the
preheader insertion point and hence cannot appear in expanded code. -/
def SEOracleFreshOK (SE : SEOracle) (banned : List Nat) : Prop :=
  ∀ s f r, SE.expandAt s f = some r →
    f ≤ r.2.2 ∧
    (∀ I, I ∈ r.1 → f ≤ I.id ∧
      (∀ oid, Value.inst oid ∈ I.operands → oid ∉ banned)) ∧
    (∀ oid, r.2.1 = Value.inst oid → oid ∉ banned)

/-- No operand anywhere in the function references value id `d` (the
value has zero remaining uses). -/
def noRefs (F : Func) (d : Nat) : Prop :=
  ∀ B ∈ F.blocks, ∀ I ∈ B.insts, Value.inst d ∉ I.operands

/-- No instruction with id `d` remains anywhere in the function (the
definition is absent from the graph). -/
def absentFrom (F : Func) (d : Nat) : Prop :=
  ∀ B ∈ F.blocks, ∀ I ∈ B.insts, I.id ≠ d

/-- Invariant of the header-PHI scan: the banned ids (the header's PHI
ids) all lie below the fresh counter, and every PHI recorded dead so far
is a banned id, is not the canonical counter, and has zero remaining
uses in the current graph. -/
def deadOK (banned : List Nat) (canIV : Option Nat) (acc : ScanAcc) : Prop :=
  (∀ p ∈ banned, p < acc.1.fresh) ∧
  (∀ d ∈ acc.2.1, d ∈ banned ∧ (∀ b, canIV = some b → d ≠ b) ∧
    noRefs acc.1.F d)

/-! ### Concrete instances

Small programs used to evaluate the passes at specific inputs: a loop
whose body holds a two-instruction invariant dependency chain, a loop
nest for the rewriter, and variants exercising the preheader-less and
diamond-shaped cases. -/

/-- A terminator-like instruction: no PHI, no memory access, not safe to
execute speculatively (branches never are). -/
def exTerm (i : Nat) : Inst := ⟨i, Op.other 0, false, false, false, []⟩

/-- `a = add 1, 2` - loop-invariant with no in-loop operands. -/
def exA : Inst := ⟨20, Op.add, true, false, true, [Value.const 1, Value.const 2]⟩

/-- `b = mul a, 3` - loop-invariant through its in-loop operand `a`. -/
def exB : Inst := ⟨21, Op.mul, true, false, true, [Value.inst 20, Value.const 3]⟩

/-- Function with preheader block 1, single-block loop `\x7b2\x7d`
holding the chain `a, b`, and exit block 4. -/
def exF1 : Func := ⟨[⟨1, [exTerm 10]⟩, ⟨2, [exA, exB, exTerm 22]⟩, ⟨4, [exTerm 40]⟩]⟩

def exL1 : LICMLoop := ⟨[2], some 1, [4]⟩

/-- Dominance of exF1's control-flow graph (entry is the preheader 1,
1 -> 2, 2 -> 2, 2 -> 4). -/
def exDom1 : Nat → Nat → Bool := fun a b =>
  (a == 1 && (b == 1 || b == 2 || b == 4)) ||
  (a == 2 && (b == 2 || b == 4)) || (a == 4 && b == 4)

/-- `x = add 1, 2` inside the conditionally executed block 3. -/
def exX : Inst := ⟨30, Op.add, true, false, true, [Value.const 1, Value.const 2]⟩

/-- Diamond loop: preheader 1, header 2 branching to body 3 or exit 4,
3 -> 2.  Block 3 does not dominate the exit, the preheader does. -/
def exF4 : Func :=
  ⟨[⟨1, [exTerm 10]⟩, ⟨2, [exTerm 23]⟩, ⟨3, [exX, exTerm 31]⟩, ⟨4, [exTerm 40]⟩]⟩

def exL4 : LICMLoop := ⟨[2, 3], some 1, [4]⟩

/-- Dominance of exF4's graph: 1 dominates everything, 2 dominates 2,3,4,
3 only itself (the edge 2 -> 4 bypasses it). -/
def exDom4 : Nat → Nat → Bool := fun a b =>
  (a == 1 && (b == 1 || b == 2 || b == 3 || b == 4)) ||
  (a == 2 && (b == 2 || b == 3 || b == 4)) ||
  (a == 3 && b == 3) || (a == 4 && b == 4)

/-- A merge-point in the loop of exF6. -/
def exPhi6 : Inst := ⟨50, Op.phi, true, false, false, [Value.const 0]⟩

/-- A load-like instruction: reads memory, operands all loop-invariant. -/
def exLd6 : Inst := ⟨51, Op.other 1, true, true, false, [Value.const 7]⟩

/-- Loop containing a merge-point and a memory-reading instruction. -/
def exF6 : Func := ⟨[⟨1, [exTerm 10]⟩, ⟨2, [exPhi6, exLd6, exTerm 52]⟩, ⟨4, [exTerm 40]⟩]⟩

def exL6 : LICMLoop := ⟨[2], some 1, [4]⟩

/-- Canonical counter of the outer rewriter loop. -/
def exIOut : Inst := ⟨10, Op.phi, true, false, false, [Value.const 0]⟩

/-- Canonical counter of the inner rewriter loop. -/
def exIIn : Inst := ⟨20, Op.phi, true, false, false, [Value.const 0]⟩

/-- Derived induction variable `j` with recurrence `\x7b10,+,5\x7d`. -/
def exJ : Inst := ⟨21, Op.phi, true, false, false, [Value.const 10]⟩

/-- An in-loop use of `j`. -/
def exUse : Inst := ⟨23, Op.add, true, false, true, [Value.inst 21, Value.const 1]⟩

/-- Loop nest for the rewriter: outer preheader 0, outer header 1 (only
the canonical counter), inner header 2 holding the canonical counter,
`j`, a use of `j`, and the terminator. -/
def exF2 : Func :=
  ⟨[⟨0, [exTerm 5]⟩, ⟨1, [exIOut, exTerm 11]⟩, ⟨2, [exIIn, exJ, exUse, exTerm 22]⟩]⟩

/-- ScalarEvolution for the nest: the counters are `\x7b0,+,1\x7d` of
their loops, `j` is `\x7b10,+,5\x7d` of the inner loop; everything is
safe to expand and the expander is never consulted (start and step are
constants). -/
def exSE2 : SEOracle :=
  ⟨fun i =>
    if i == 10 then SCEVExpr.addRec 100 (SCEVExpr.scConst 0) (SCEVExpr.scConst 1) true
    else if i == 20 then SCEVExpr.addRec 200 (SCEVExpr.scConst 0) (SCEVExpr.scConst 1) true
    else if i == 21 then SCEVExpr.addRec 200 (SCEVExpr.scConst 10) (SCEVExpr.scConst 5) true
    else SCEVExpr.scUnknown i,
   fun _ => true, fun _ _ => Option.none⟩

def exInner : RLoop := RLoop.mk 200 2 (some 1) (some 20) []

def exOuter : RLoop := RLoop.mk 100 1 (some 0) (some 10) [exInner]

/-- A single preheader-less loop for the rewriter. -/
def exF3 : Func := ⟨[⟨2, [exIIn, exJ, exUse, exTerm 22]⟩]⟩

def exSE3 : SEOracle :=
  ⟨fun i =>
    if i == 20 then SCEVExpr.addRec 300 (SCEVExpr.scConst 0) (SCEVExpr.scConst 1) true
    else if i == 21 then SCEVExpr.addRec 300 (SCEVExpr.scConst 10) (SCEVExpr.scConst 5) true
    else SCEVExpr.scUnknown i,
   fun _ => true, fun _ _ => Option.none⟩

def exL3 : RLoop := RLoop.mk 300 2 Option.none (some 20) []

/-- An already-simplified loop: its only header merge-point is the
canonical counter. -/
def exF9 : Func := ⟨[⟨2, [exIIn, exTerm 22]⟩]⟩

/-! ## Theorems -/

/-- C10: the Invariant Hoister reports `PreservedAnalyses::none()` to the
host if and only if the loop has a preheader - unconditionally on whether
the invariant set is empty or anything was actually moved (the hoisting
order, and with it the set of moved instructions, is universally
quantified here). -/
theorem C10_reports_change_iff_preheader (dom : Nat → Nat → Bool) (F : Func)
    (L : LICMLoop) (order : List Nat) :
    (licmRun dom F L order).2.2 = Preserved.none ↔ L.preheaderId.isSome := by
  cases h : L.preheaderId <;> simp [licmRun, h]

/-- C2 fails on the code: on a function whose outer loop is unchanged but
whose inner loop is rewritten, `analyzeLoopRecursively` on the outer loop
returns false although a descendant changed the graph (the recursive call
result on line 156 is discarded), the inner call itself returns true, and
`run` consequently reports `PreservedAnalyses::all()` despite having
mutated the function. -/
theorem C2_change_report_lost :
    (analyzeLoopRecursively exSE2 ⟨exF2, 50⟩ exOuter).2 = false ∧
    (analyzeLoopRecursively exSE2 ⟨exF2, 50⟩ exOuter).1.F ≠ exF2 ∧
    (analyzeLoopRecursively exSE2 ⟨exF2, 50⟩ exInner).2 = true ∧
    (derivedIVRun exSE2 exF2 50 [exOuter]).2 = Preserved.all := by
  decide

/-- C1 fails as stated: iterating the invariant set
`\x7ba = 20, b = 21, terminator = 22\x7d` of exF1 in the order
`[b, a, t]` - a legitimate iteration order of the unordered pointer set -
hoists both `a` and `b`, yet places the user `b` BEFORE its operand `a`
in the preheader, a use before its definition. -/
theorem C1_counterexample :
    ([21, 20, 22] : List Nat).Perm (licmInvariantSet exF1 exL1) ∧
    (licmRun exDom1 exF1 exL1 [21, 20, 22]).2.1 = [21, 20] ∧
    Value.inst exA.id ∈ exB.operands ∧
    findBlock (licmRun exDom1 exF1 exL1 [21, 20, 22]).1 1 =
      some ⟨1, [exB, exA, exTerm 10]⟩ ∧
    ¬ ([exA, exB] : List Inst).Sublist [exB, exA, exTerm 10] := by
  decide

/-- C3 fails on the code for the rewriter half: the preheader-less loop
exL3 carries a derived induction variable with CONSTANT start and step,
which needs no materialization point; the rewriter rewrites it anyway,
mutating the graph and reporting a change. -/
theorem C3_counterexample :
    exL3.preheaderId = Option.none ∧
    (analyzeLoopRecursively exSE3 ⟨exF3, 50⟩ exL3).2 = true ∧
    (analyzeLoopRecursively exSE3 ⟨exF3, 50⟩ exL3).1.F ≠ exF3 := by
  decide

/-- C4 fails as stated: in the diamond loop exF4 the instruction `x = 30`
is in the invariant set, is safe to execute speculatively, and its
post-move definition point (the preheader) dominates the only exit - yet
the pass hoists nothing, because it checks dominance at the ORIGINAL
position (block 3 does not dominate the exit). -/
theorem C4_counterexample :
    ([23, 30, 31] : List Nat).Perm (licmInvariantSet exF4 exL4) ∧
    exX.id ∈ licmInvariantSet exF4 exL4 ∧
    exX.safeToSpec = true ∧
    preheaderDominatesExits exDom4 exL4 1 = true ∧
    (licmRun exDom4 exF4 exL4 [23, 30, 31]).2.1 = [] := by
  decide

end LoopOpt
namespace LoopOpt

theorem processPhi_skip (SE : SEOracle) (lid : Nat) (canIV : Option Nat)
    (phId : Option Nat) (hdrId anchor : Nat) (acc : ScanAcc) (PN : Inst)
    (h : phiSkipsEarly SE lid canIV phId.isSome PN = true) :
    processPhi SE lid canIV phId hdrId anchor acc PN = acc := by
  obtain ⟨st, dead, flag⟩ := acc
  cases hI : PN.isIntTy with
  | false => simp [processPhi, hI]
  | true =>
    rcases hS : SE.scevOf PN.id with v | ⟨arLoop, start, step, affine⟩ | u
    · simp [processPhi, hI, hS]
    · cases hA : (arLoop == lid && affine) with
      | false => simp [processPhi, hI, hS, hA]
      | true =>
        cases canIV with
        | none => simp [processPhi, hI, hS, hA]
        | some bIV =>
          cases hG : (!SE.safeToExpand (SCEVExpr.addRec arLoop start step affine) ||
              (SCEVExpr.addRec arLoop start step affine == SE.scevOf bIV)) with
          | true => simp [processPhi, hI, hS, hA, hG]
          | false =>
            rcases hst : start with sv | ⟨a1, b1, c1, d1⟩ | u1 <;>
            rcases hsp : step with tv | ⟨a2, b2, c2, d2⟩ | u2 <;>
            cases phId <;>
            simp_all [processPhi, phiSkipsEarly]
    · simp [processPhi, hI, hS]

end LoopOpt

namespace LoopOpt

theorem scanFold_skip (SE : SEOracle) (lid : Nat) (canIV : Option Nat)
    (phId : Option Nat) (hdrId anchor : Nat) (phis : List Inst)
    (h : ∀ PN ∈ phis, phiSkipsEarly SE lid canIV phId.isSome PN = true) :
    ∀ acc : ScanAcc, phis.foldl (processPhi SE lid canIV phId hdrId anchor) acc = acc := by
  induction phis with
  | nil => intro acc; rfl
  | cons PN rest ih =>
    intro acc
    rw [List.foldl_cons, processPhi_skip SE lid canIV phId hdrId anchor acc PN (h PN (by simp))]
    exact ih (fun P hP => h P (by simp [hP])) acc

theorem rewriteHeaderPhis_skip (SE : SEOracle) (lid : Nat) (canIV : Option Nat)
    (phId : Option Nat) (hdrId anchor : Nat) (phis : List Inst) (st : RState)
    (h : ∀ PN ∈ phis, phiSkipsEarly SE lid canIV phId.isSome PN = true) :
    rewriteHeaderPhis SE lid canIV phId hdrId anchor phis st = (st, [], false) := by
  unfold rewriteHeaderPhis
  rw [scanFold_skip SE lid canIV phId hdrId anchor phis h]
  rfl

mutual

theorem nestUntouched_noop (SE : SEOracle) (st : RState) (L : RLoop)
    (h : nestUntouched SE st.F L = true) :
    analyzeLoopRecursively SE st L = (st, false) := by
  match L with
  | RLoop.mk lid hdrId phId canIV subs =>
    unfold nestUntouched at h
    unfold analyzeLoopRecursively
    cases hB : findBlock st.F hdrId with
    | none => rfl
    | some hdr =>
      simp only [hB] at h ⊢
      cases hN : hdr.insts.find? (fun I => !I.isPHI) with
      | none => simp [hN]
      | some anchor =>
        simp only [hN, Bool.and_eq_true, List.all_eq_true] at h
        obtain ⟨h1, h2⟩ := h
        simp only [hN]
        rw [rewriteHeaderPhis_skip SE lid canIV phId hdrId anchor.id
          (hdr.insts.takeWhile Inst.isPHI) st h1]
        rw [nestUntouchedList_noop SE st subs h2]

theorem nestUntouchedList_noop (SE : SEOracle) (st : RState) (ls : List RLoop)
    (h : nestUntouchedList SE st.F ls = true) :
    analyzeSubLoops SE st ls = st := by
  match ls with
  | [] => rfl
  | l :: rest =>
    unfold nestUntouchedList at h
    rw [Bool.and_eq_true] at h
    unfold analyzeSubLoops
    rw [nestUntouched_noop SE st l h.1]
    exact nestUntouchedList_noop SE st rest h.2

end

theorem phiAlreadySimple_skip (SE : SEOracle) (lid : Nat) (canIV : Option Nat)
    (hasPH : Bool) (PN : Inst) (h : phiAlreadySimple SE lid canIV PN = true) :
    phiSkipsEarly SE lid canIV hasPH PN = true := by
  unfold phiAlreadySimple at h
  cases hI : PN.isIntTy with
  | false => simp [phiSkipsEarly, hI]
  | true =>
    rcases hS : SE.scevOf PN.id with v | ⟨arLoop, start, step, affine⟩ | u
    · simp [phiSkipsEarly, hI, hS]
    · cases hA : (arLoop == lid && affine) with
      | false => simp [phiSkipsEarly, hI, hS, hA]
      | true =>
        cases canIV with
        | none => simp [hI, hS, hA] at h
        | some b =>
          simp only [hI, hS, hA, Bool.not_true, Bool.or_eq_true, beq_iff_eq] at h
          have hb : PN.id = b := by
            rcases h with (h | h) | h
            · exact absurd h (by simp)
            · exact absurd h (by simp)
            · exact h
          have hSb : SE.scevOf b = SCEVExpr.addRec arLoop start step affine := by
            rw [← hb]; exact hS
          simp [phiSkipsEarly, hI, hS, hA, hSb]
    · simp [phiSkipsEarly, hI, hS]

mutual

theorem simplifiedNest_untouched (SE : SEOracle) (F : Func) (L : RLoop)
    (h : simplifiedNest SE F L = true) : nestUntouched SE F L = true := by
  match L with
  | RLoop.mk lid hdrId phId canIV subs =>
    unfold simplifiedNest at h
    unfold nestUntouched
    rw [Bool.and_eq_true] at h
    obtain ⟨h1, h2⟩ := h
    rw [Bool.and_eq_true]
    refine ⟨?_, simplifiedNestList_untouched SE F subs h2⟩
    cases hB : findBlock F hdrId with
    | none => rfl
    | some hdr =>
      simp only [hB] at h1 ⊢
      cases hN : hdr.insts.find? (fun I => !I.isPHI) with
      | none => simp [hN]
      | some anchor =>
        simp only [hN, List.all_eq_true] at h1 ⊢
        exact fun PN hPN => phiAlreadySimple_skip SE lid canIV phId.isSome PN (h1 PN hPN)

theorem simplifiedNestList_untouched (SE : SEOracle) (F : Func) (ls : List RLoop)
    (h : simplifiedNestList SE F ls = true) : nestUntouchedList SE F ls = true := by
  match ls with
  | [] => rfl
  | l :: rest =>
    unfold simplifiedNestList at h
    unfold nestUntouchedList
    rw [Bool.and_eq_true] at h ⊢
    exact ⟨simplifiedNest_untouched SE F l h.1, simplifiedNestList_untouched SE F rest h.2⟩

end


/-- C9: running the Induction-Variable Rewriter on a loop nest that is
already fully simplified - every remaining header merge-point of every
loop in the nest is the canonical counter itself, not an affine
recurrence of its loop, or not integer-typed - performs no edit (the
state is returned unchanged) and reports no change. -/
theorem C9_second_run_noop (SE : SEOracle) (st : RState) (L : RLoop)
    (h : simplifiedNest SE st.F L = true) :
    analyzeLoopRecursively SE st L = (st, false) :=
  nestUntouched_noop SE st L (simplifiedNest_untouched SE st.F L h)

/-- Instance of C9 on the already-simplified loop exF9 (only remaining
header merge-point: the canonical counter). -/
theorem C9_second_run_noop_witness :
    simplifiedNest exSE3 exF9 exL3 = true ∧
    analyzeLoopRecursively exSE3 ⟨exF9, 50⟩ exL3 = (⟨exF9, 50⟩, false) :=
  ⟨by decide, C9_second_run_noop exSE3 ⟨exF9, 50⟩ exL3 (by decide)⟩

/-- C3 amended: a loop with no preheader is left unmodified with zero
changes reported by the Invariant Hoister always, and by the
Induction-Variable Rewriter provided no header merge-point is an affine
candidate of the loop with BOTH start and step constant (such a
merge-point needs no materialization point and is still rewritten, as the
counterexample shows); candidates with non-constant start or step are
skipped at the missing-preheader check. -/
theorem C3_amended_no_preheader :
    (∀ (dom : Nat → Nat → Bool) (F : Func) (L : LICMLoop) (order : List Nat),
      L.preheaderId = Option.none → licmRun dom F L order = (F, [], Preserved.all)) ∧
    (∀ (SE : SEOracle) (st : RState) (lid hdrId : Nat) (canIV : Option Nat),
      (∀ hdr, findBlock st.F hdrId = some hdr →
        ∀ PN ∈ hdr.insts.takeWhile Inst.isPHI,
          phiSkipsEarly SE lid canIV false PN = true) →
      analyzeLoopRecursively SE st (RLoop.mk lid hdrId Option.none canIV []) = (st, false)) := by
  constructor
  · intro dom F L order hp
    unfold licmRun
    rw [hp]
  · intro SE st lid hdrId canIV hskip
    apply nestUntouched_noop
    unfold nestUntouched
    rw [Bool.and_eq_true]
    refine ⟨?_, rfl⟩
    cases hB : findBlock st.F hdrId with
    | none => rfl
    | some hdr =>
      simp only [hB]
      cases hN : hdr.insts.find? (fun I => !I.isPHI) with
      | none => simp [hN]
      | some anchor =>
        simp only [hN, List.all_eq_true]
        exact fun PN hPN => hskip hdr hB PN hPN

/-- Instance of the amended C3: a preheader-less LICM loop is returned
untouched with all analyses preserved, and the rewriter leaves the
preheader-less loop exL3 over the simplified graph exF9 unchanged. -/
theorem C3_amended_no_preheader_witness :
    licmRun exDom1 exF1 ⟨[2], Option.none, [4]⟩ [20, 21, 22] = (exF1, [], Preserved.all) ∧
    analyzeLoopRecursively exSE3 ⟨exF9, 50⟩ (RLoop.mk 300 2 Option.none (some 20) []) =
      (⟨exF9, 50⟩, false) := by
  constructor
  · exact C3_amended_no_preheader.1 exDom1 exF1 ⟨[2], Option.none, [4]⟩ [20, 21, 22] rfl
  · refine C3_amended_no_preheader.2 exSE3 ⟨exF9, 50⟩ 300 2 (some 20) ?_
    intro hdr hh
    have h2 : findBlock exF9 2 = some ⟨2, [exIIn, exTerm 22]⟩ := by decide
    have he : hdr = ⟨2, [exIIn, exTerm 22]⟩ := (Option.some.inj (h2.symm.trans hh)).symm
    subst he
    decide


/-! ### The invariant set is the least closure (C5 machinery) -/

theorem contains_mem {l : List Nat} {a : Nat} : l.contains a = true ↔ a ∈ l :=
  List.elem_iff

/-- Decomposition of the worklist admission test. -/
theorem userEligible_spec (F : Func) (L : LICMLoop) (s : List Nat) (U : Inst)
    (h : userEligible F L s U = true) :
    containsInst F L U.id = true ∧ U.id ∉ s ∧ U.isPHI = false ∧
    U.mayRWMem = false ∧
    (∀ oid, Value.inst oid ∈ U.operands → containsInst F L oid = true → oid ∈ s) := by
  unfold userEligible at h
  simp only [Bool.and_eq_true, List.all_eq_true, Bool.not_eq_true'] at h
  obtain ⟨⟨⟨⟨hc, hns⟩, hnp⟩, hnm⟩, hall⟩ := h
  refine ⟨hc, fun hmem => by simp at hns; exact hns hmem, hnp, hnm, ?_⟩
  intro oid hmem hcont
  have h2 := hall (Value.inst oid) hmem
  simp only [hcont, Bool.not_true, Bool.false_or] at h2
  exact contains_mem.mp h2

/-- An instruction whose in-loop operands are all in the set is admitted
unless it is already there (the remaining flag checks given). -/
theorem userEligible_of (F : Func) (L : LICMLoop) (s : List Nat) (U : Inst)
    (hc : containsInst F L U.id = true) (hnp : U.isPHI = false)
    (hnm : U.mayRWMem = false)
    (hops : ∀ oid, Value.inst oid ∈ U.operands → containsInst F L oid = true → oid ∈ s) :
    userEligible F L s U = true ∨ U.id ∈ s := by
  by_cases hs : U.id ∈ s
  · exact Or.inr hs
  · left
    unfold userEligible
    simp only [Bool.and_eq_true, List.all_eq_true, Bool.not_eq_true']
    refine ⟨⟨⟨⟨hc, ?_⟩, hnp⟩, hnm⟩, ?_⟩
    · cases hcc : s.contains U.id with
      | false => rfl
      | true => exact absurd (contains_mem.mp hcc) hs
    · intro v hv
      cases v with
      | const c => rfl
      | inst oid =>
        by_cases hco : containsInst F L oid = true
        · simp [hco, hops oid hv hco]
        · have : containsInst F L oid = false := by
            cases hcb : containsInst F L oid with
            | false => rfl
            | true => exact absurd hcb hco
          simp [this]
      
theorem processUsers_fst (F : Func) (L : LICMLoop) :
    ∀ (us : List Inst) (s : List Nat),
      (processUsers F L s us).1 = s ++ (processUsers F L s us).2 := by
  intro us
  induction us with
  | nil => intro s; simp [processUsers]
  | cons U Us ih =>
    intro s
    unfold processUsers
    cases hE : userEligible F L s U with
    | false => simpa [hE] using ih s
    | true => simp [hE, ih (s ++ [U.id])]

theorem processUsers_mono (F : Func) (L : LICMLoop) (us : List Inst) (s : List Nat) :
    ∀ i ∈ s, i ∈ (processUsers F L s us).1 := by
  intro i hi
  rw [processUsers_fst]
  exact List.mem_append_left _ hi

theorem processUsers_sound (F : Func) (L : LICMLoop) (hWF : WFL F L) :
    ∀ (us : List Inst) (s : List Nat),
      (∀ PN ∈ us, PN ∈ F.allInsts) →
      (∀ i ∈ s, LInv F L i) →
      ∀ i ∈ (processUsers F L s us).1, LInv F L i := by
  intro us
  induction us with
  | nil => intro s hus hs; simpa [processUsers] using hs
  | cons U Us ih =>
    intro s hus hs
    unfold processUsers
    cases hE : userEligible F L s U with
    | false =>
      simpa [hE] using ih s (fun P hP => hus P (List.mem_cons_of_mem _ hP)) hs
    | true =>
      obtain ⟨hc, _, hnp, hnm, hops⟩ := userEligible_spec F L s U hE
      have hUin : U ∈ loopInsts F L :=
        (hWF.2.2.2 U (hus U (List.mem_cons_self U _))).mp hc
      have hnew : LInv F L U.id :=
        LInv.intro U hUin hnp hnm (fun oid h1 h2 => hs oid (hops oid h1 h2))
      have hs2 : ∀ i ∈ s ++ [U.id], LInv F L i := by
        intro i hi
        rcases List.mem_append.mp hi with hi | hi
        · exact hs i hi
        · rw [List.mem_singleton.mp hi]; exact hnew
      simpa [hE] using ih (s ++ [U.id]) (fun P hP => hus P (List.mem_cons_of_mem _ hP)) hs2

theorem processUsers_complete (F : Func) (L : LICMLoop) :
    ∀ (us : List Inst) (s : List Nat) (U : Inst), U ∈ us →
      containsInst F L U.id = true → U.isPHI = false → U.mayRWMem = false →
      (∀ oid, Value.inst oid ∈ U.operands → containsInst F L oid = true → oid ∈ s) →
      U.id ∈ (processUsers F L s us).1 := by
  intro us
  induction us with
  | nil => intro s U h; exact absurd h (List.not_mem_nil U)
  | cons V Vs ih =>
    intro s U hU hc hnp hnm hops
    rcases List.mem_cons.mp hU with rfl | hU2
    · cases hE : userEligible F L s U with
      | false =>
        rcases userEligible_of F L s U hc hnp hnm hops with h1 | h1
        · rw [hE] at h1; exact absurd h1 (by simp)
        · unfold processUsers
          simp only [hE, if_false, Bool.false_eq_true]
          exact processUsers_mono F L Vs s U.id h1
      | true =>
        unfold processUsers
        simp only [hE, if_true]
        exact processUsers_mono F L Vs (s ++ [U.id]) U.id
          (List.mem_append_right _ (List.mem_singleton.mpr rfl))
    · cases hE : userEligible F L s V with
      | false =>
        unfold processUsers
        simp only [hE, if_false, Bool.false_eq_true]
        exact ih s U hU2 hc hnp hnm hops
      | true =>
        unfold processUsers
        simp only [hE, if_true]
        exact ih (s ++ [V.id]) U hU2 hc hnp hnm
          (fun oid h1 h2 => List.mem_append_left _ (hops oid h1 h2))

theorem processUsers_nodup (F : Func) (L : LICMLoop) :
    ∀ (us : List Inst) (s : List Nat), s.Nodup → (processUsers F L s us).1.Nodup := by
  intro us
  induction us with
  | nil => intro s hs; simpa [processUsers] using hs
  | cons U Us ih =>
    intro s hs
    unfold processUsers
    cases hE : userEligible F L s U with
    | false => simpa [hE] using ih s hs
    | true =>
      obtain ⟨_, hns, _, _, _⟩ := userEligible_spec F L s U hE
      have : (s ++ [U.id]).Nodup := by
        simp [List.nodup_append, hs, hns]
      simpa [hE] using ih (s ++ [U.id]) this

theorem processUsers_inLoop (F : Func) (L : LICMLoop) (hWF : WFL F L) :
    ∀ (us : List Inst) (s : List Nat),
      (∀ PN ∈ us, PN ∈ F.allInsts) →
      (∀ i ∈ s, ∃ I ∈ loopInsts F L, I.id = i) →
      ∀ i ∈ (processUsers F L s us).1, ∃ I ∈ loopInsts F L, I.id = i := by
  intro us
  induction us with
  | nil => intro s hus hs; simpa [processUsers] using hs
  | cons U Us ih =>
    intro s hus hs
    unfold processUsers
    cases hE : userEligible F L s U with
    | false =>
      simpa [hE] using ih s (fun P hP => hus P (List.mem_cons_of_mem _ hP)) hs
    | true =>
      obtain ⟨hc, _, _, _, _⟩ := userEligible_spec F L s U hE
      have hUin : U ∈ loopInsts F L :=
        (hWF.2.2.2 U (hus U (List.mem_cons_self U _))).mp hc
      have hs2 : ∀ i ∈ s ++ [U.id], ∃ I ∈ loopInsts F L, I.id = i := by
        intro i hi
        rcases List.mem_append.mp hi with hi | hi
        · exact hs i hi
        · exact ⟨U, hUin, (List.mem_singleton.mp hi).symm⟩
      simpa [hE] using ih (s ++ [U.id]) (fun P hP => hus P (List.mem_cons_of_mem _ hP)) hs2


/-- A duplicate-free list of loop-instruction ids is no longer than the
loop's instruction list. -/
theorem length_le_loop (F : Func) (L : LICMLoop) (s : List Nat) (hnd : s.Nodup)
    (hin : ∀ i ∈ s, ∃ I ∈ loopInsts F L, I.id = i) :
    s.length ≤ (loopInsts F L).length := by
  have hsub : s ⊆ (loopInsts F L).map Inst.id := by
    intro i hi
    obtain ⟨I, hI, hid⟩ := hin i hi
    exact List.mem_map.mpr ⟨I, hI, hid⟩
  have := (List.subperm_of_subset hnd hsub).length_le
  simpa using this

/-- The worklist loop, run with enough fuel from a state satisfying the
loop invariants, yields a set that contains its input, is sound for the
closure predicate, and is saturated: any in-loop instruction with the
right flags whose in-loop operands all ended up in the result is itself
in the result. -/
theorem closure_spec (F : Func) (L : LICMLoop) (hWF : WFL F L) :
    ∀ (fuel : Nat) (s wl : List Nat),
      (∀ i ∈ s, LInv F L i) →
      (∀ i ∈ wl, i ∈ s) →
      (∀ U : Inst, U ∈ loopInsts F L → U.isPHI = false → U.mayRWMem = false →
        (∀ oid, Value.inst oid ∈ U.operands → containsInst F L oid = true → oid ∈ s) →
        U.id ∈ s ∨ ∃ oid ∈ wl, Value.inst oid ∈ U.operands) →
      s.Nodup →
      (∀ i ∈ s, ∃ I ∈ loopInsts F L, I.id = i) →
      (loopInsts F L).length - s.length + wl.length ≤ fuel →
      (∀ i ∈ s, i ∈ closureLoop F L s wl fuel) ∧
      (∀ i ∈ closureLoop F L s wl fuel, LInv F L i) ∧
      (∀ U : Inst, U ∈ loopInsts F L → U.isPHI = false → U.mayRWMem = false →
        (∀ oid, Value.inst oid ∈ U.operands → containsInst F L oid = true →
          oid ∈ closureLoop F L s wl fuel) →
        U.id ∈ closureLoop F L s wl fuel) := by
  intro fuel
  induction fuel with
  | zero =>
    intro s wl h1 h2 h3 h4 h5 hb
    cases wl with
    | nil =>
      refine ⟨fun i hi => hi, h1, ?_⟩
      intro U hU hp hm hops
      rcases h3 U hU hp hm hops with h | ⟨oid, hoid, _⟩
      · exact h
      · exact absurd hoid (List.not_mem_nil oid)
    | cons i rest =>
      exfalso
      simp only [List.length_cons] at hb
      omega
  | succ fuel ih =>
    intro s wl h1 h2 h3 h4 h5 hb
    cases wl with
    | nil =>
      refine ⟨fun i hi => hi, h1, ?_⟩
      intro U hU hp hm hops
      rcases h3 U hU hp hm hops with h | ⟨oid, hoid, _⟩
      · exact h
      · exact absurd hoid (List.not_mem_nil oid)
    | cons i rest =>
      have hus : ∀ PN ∈ usersOf F i, PN ∈ F.allInsts :=
        fun PN hP => (List.mem_filter.mp hP).1
      have hstep : closureLoop F L s (i :: rest) (fuel + 1) =
          closureLoop F L (processUsers F L s (usersOf F i)).1
            ((processUsers F L s (usersOf F i)).2.reverse ++ rest) fuel := rfl
      rw [hstep]
      have h1s : ∀ j ∈ (processUsers F L s (usersOf F i)).1, LInv F L j :=
        processUsers_sound F L hWF (usersOf F i) s hus h1
      have h2s : ∀ j ∈ (processUsers F L s (usersOf F i)).2.reverse ++ rest,
          j ∈ (processUsers F L s (usersOf F i)).1 := by
        intro j hj
        rcases List.mem_append.mp hj with hj | hj
        · rw [processUsers_fst]
          exact List.mem_append_right _ (List.mem_reverse.mp hj)
        · exact processUsers_mono F L (usersOf F i) s j (h2 j (List.mem_cons_of_mem _ hj))
      have h3s : ∀ U : Inst, U ∈ loopInsts F L → U.isPHI = false → U.mayRWMem = false →
          (∀ oid, Value.inst oid ∈ U.operands → containsInst F L oid = true →
            oid ∈ (processUsers F L s (usersOf F i)).1) →
          U.id ∈ (processUsers F L s (usersOf F i)).1 ∨
          ∃ oid ∈ (processUsers F L s (usersOf F i)).2.reverse ++ rest,
            Value.inst oid ∈ U.operands := by
        intro U hU hp hm hops
        by_cases hex : ∃ oid, Value.inst oid ∈ U.operands ∧
            oid ∈ (processUsers F L s (usersOf F i)).2
        · obtain ⟨oid, ho1, ho2⟩ := hex
          exact Or.inr ⟨oid, List.mem_append_left _ (List.mem_reverse.mpr ho2), ho1⟩
        · push_neg at hex
          have hops_s : ∀ oid, Value.inst oid ∈ U.operands →
              containsInst F L oid = true → oid ∈ s := by
            intro oid h1o h2o
            have hmem := hops oid h1o h2o
            rw [processUsers_fst] at hmem
            rcases List.mem_append.mp hmem with h | h
            · exact h
            · exact absurd h (hex oid h1o)
          rcases h3 U hU hp hm hops_s with h | ⟨oid, hoid, hop⟩
          · exact Or.inl (processUsers_mono F L (usersOf F i) s U.id h)
          · rcases List.mem_cons.mp hoid with heq | hoid2
            · rw [heq] at hop
              have hUall : U ∈ F.allInsts := hWF.2.2.1 U hU
              have hUuser : U ∈ usersOf F i := by
                unfold usersOf
                refine List.mem_filter.mpr ⟨hUall, ?_⟩
                exact List.elem_iff.mpr hop
              exact Or.inl (processUsers_complete F L (usersOf F i) s U hUuser
                ((hWF.2.2.2 U hUall).mpr hU) hp hm hops_s)
            · exact Or.inr ⟨oid, List.mem_append_right _ hoid2, hop⟩
      have h4s : (processUsers F L s (usersOf F i)).1.Nodup :=
        processUsers_nodup F L (usersOf F i) s h4
      have h5s : ∀ j ∈ (processUsers F L s (usersOf F i)).1,
          ∃ I ∈ loopInsts F L, I.id = j :=
        processUsers_inLoop F L hWF (usersOf F i) s hus h5
      have hlen1 : (processUsers F L s (usersOf F i)).1.length =
          s.length + (processUsers F L s (usersOf F i)).2.length := by
        rw [processUsers_fst]; simp
      have hle : (processUsers F L s (usersOf F i)).1.length ≤ (loopInsts F L).length :=
        length_le_loop F L _ h4s h5s
      have hbs : (loopInsts F L).length - (processUsers F L s (usersOf F i)).1.length +
          ((processUsers F L s (usersOf F i)).2.reverse ++ rest).length ≤ fuel := by
        simp only [List.length_append, List.length_reverse]
        simp only [List.length_cons] at hb
        omega
      obtain ⟨c1, c2, c3⟩ := ih (processUsers F L s (usersOf F i)).1
        ((processUsers F L s (usersOf F i)).2.reverse ++ rest)
        h1s h2s h3s h4s h5s hbs
      exact ⟨fun j hj => c1 j (processUsers_mono F L (usersOf F i) s j hj), c2, c3⟩

/-- C5: the invariant set computed by the worklist fixed point is exactly
the least closure of "non-merge-point, no memory access, every in-loop
operand already invariant" (predicate `LInv`), and in particular no
instruction is ever in the set while one of its in-loop operands is
outside it. -/
theorem C5_invariant_set_is_least_closure (F : Func) (L : LICMLoop) (hWF : WFL F L) :
    (∀ i, i ∈ licmInvariantSet F L ↔ LInv F L i) ∧
    (∀ i, i ∈ licmInvariantSet F L → ∀ I, findInst F i = some I →
      ∀ oid, Value.inst oid ∈ I.operands → containsInst F L oid = true →
      oid ∈ licmInvariantSet F L) := by
  have hdef : licmInvariantSet F L =
      closureLoop F L ((seedPhase F L).map Inst.id)
        (((seedPhase F L).map Inst.id).reverse) F.allInsts.length := rfl
  have hseed_mem : ∀ I, I ∈ seedPhase F L → I ∈ loopInsts F L ∧ seedOK F L I = true :=
    fun I hI => List.mem_filter.mp hI
  have hseedOK : ∀ I, seedOK F L I = true → I.isPHI = false ∧ I.mayRWMem = false ∧
      (∀ oid, Value.inst oid ∈ I.operands → containsInst F L oid = false) := by
    intro I h
    unfold seedOK at h
    simp only [Bool.and_eq_true, List.all_eq_true, Bool.not_eq_true'] at h
    obtain ⟨⟨hnp, hnm⟩, hall⟩ := h
    refine ⟨hnp, hnm, ?_⟩
    intro oid hmem
    have h2 := hall (Value.inst oid) hmem
    simpa using h2
  have h1 : ∀ i ∈ (seedPhase F L).map Inst.id, LInv F L i := by
    intro i hi
    obtain ⟨I, hI, rfl⟩ := List.mem_map.mp hi
    obtain ⟨hmem, hok⟩ := hseed_mem I hI
    obtain ⟨hnp, hnm, hall⟩ := hseedOK I hok
    refine LInv.intro I hmem hnp hnm ?_
    intro oid h1o h2o
    rw [hall oid h1o] at h2o
    exact absurd h2o (by simp)
  have h2 : ∀ i ∈ ((seedPhase F L).map Inst.id).reverse, i ∈ (seedPhase F L).map Inst.id :=
    fun i hi => List.mem_reverse.mp hi
  have h3 : ∀ U : Inst, U ∈ loopInsts F L → U.isPHI = false → U.mayRWMem = false →
      (∀ oid, Value.inst oid ∈ U.operands → containsInst F L oid = true →
        oid ∈ (seedPhase F L).map Inst.id) →
      U.id ∈ (seedPhase F L).map Inst.id ∨
      ∃ oid ∈ ((seedPhase F L).map Inst.id).reverse, Value.inst oid ∈ U.operands := by
    intro U hU hp hm hops
    by_cases hex : ∃ oid, Value.inst oid ∈ U.operands ∧ containsInst F L oid = true
    · obtain ⟨oid, ho1, ho2⟩ := hex
      exact Or.inr ⟨oid, List.mem_reverse.mpr (hops oid ho1 ho2), ho1⟩
    · push_neg at hex
      left
      refine List.mem_map.mpr ⟨U, ?_, rfl⟩
      refine List.mem_filter.mpr ⟨hU, ?_⟩
      unfold seedOK
      simp only [Bool.and_eq_true, List.all_eq_true, Bool.not_eq_true']
      refine ⟨⟨hp, hm⟩, ?_⟩
      intro v hv
      cases v with
      | const c => rfl
      | inst oid =>
        have hne := hex oid hv
        show (!containsInst F L oid) = true
        cases hco : containsInst F L oid with
        | false => rfl
        | true => exact absurd hco hne
  have h4 : ((seedPhase F L).map Inst.id).Nodup :=
    ((List.filter_sublist (loopInsts F L)).map Inst.id).nodup hWF.2.1
  have h5 : ∀ i ∈ (seedPhase F L).map Inst.id, ∃ I ∈ loopInsts F L, I.id = i := by
    intro i hi
    obtain ⟨I, hI, rfl⟩ := List.mem_map.mp hi
    exact ⟨I, (hseed_mem I hI).1, rfl⟩
  have hNle : (loopInsts F L).length ≤ F.allInsts.length := by
    have hsub : (loopInsts F L).map Inst.id ⊆ F.allInsts.map Inst.id := by
      intro x hx
      obtain ⟨I, hI, rfl⟩ := List.mem_map.mp hx
      exact List.mem_map.mpr ⟨I, hWF.2.2.1 I hI, rfl⟩
    have := (List.subperm_of_subset hWF.2.1 hsub).length_le
    simpa using this
  have hseedlen : ((seedPhase F L).map Inst.id).length ≤ (loopInsts F L).length := by
    simp only [List.length_map]
    exact List.length_filter_le _ _
  have hb : (loopInsts F L).length - ((seedPhase F L).map Inst.id).length +
      (((seedPhase F L).map Inst.id).reverse).length ≤ F.allInsts.length := by
    simp only [List.length_reverse]
    omega
  obtain ⟨c1, c2, c3⟩ := closure_spec F L hWF F.allInsts.length
    ((seedPhase F L).map Inst.id) (((seedPhase F L).map Inst.id).reverse)
    h1 h2 h3 h4 h5 hb
  rw [← hdef] at c1 c2 c3
  have hiff : ∀ i, i ∈ licmInvariantSet F L ↔ LInv F L i := by
    intro i
    constructor
    · exact c2 i
    · intro hLI
      induction hLI with
      | intro I hmem hphi hrw hops IH =>
        exact c3 I hmem hphi hrw (fun oid h1o h2o => IH oid h1o h2o)
  refine ⟨hiff, ?_⟩
  intro i hi I hfind oid homem hocont
  have hLI := (hiff i).mp hi
  obtain ⟨I2, hmem2, hphi2, hrw2, hops2⟩ := hLI
  have hI2all : I2 ∈ F.allInsts := hWF.2.2.1 I2 hmem2
  have hIall : I ∈ F.allInsts := List.mem_of_find?_eq_some hfind
  have hid : I.id = I2.id := by
    have := List.find?_some hfind
    simpa using this
  have hII2 : I = I2 := List.inj_on_of_nodup_map hWF.1 hIall hI2all hid
  rw [hII2] at homem
  exact (hiff oid).mpr (hops2 oid homem hocont)


/-- Instance of C5 on exF1: the multiply depending on the invariant add
is classified invariant exactly as the closure predicate demands. -/
theorem C5_invariant_set_is_least_closure_witness :
    WFL exF1 exL1 ∧ (21 ∈ licmInvariantSet exF1 exL1 ↔ LInv exF1 exL1 21) :=
  ⟨by decide, (C5_invariant_set_is_least_closure exF1 exL1 (by decide)).1 21⟩

/-- Inversion of the closure predicate. -/
theorem LInv_elim (F : Func) (L : LICMLoop) (i : Nat) (h : LInv F L i) :
    ∃ I2 ∈ loopInsts F L, I2.id = i ∧ I2.isPHI = false ∧ I2.mayRWMem = false := by
  cases h with
  | intro I2 hmem hphi hrw hops => exact ⟨I2, hmem, rfl, hphi, hrw⟩

/-- Every id the hoisting fold reports moved was already reported or
comes from the iteration order. -/
theorem hoistFold_moved_sub (dom : Nat → Nat → Bool) (L : LICMLoop) (ph : Nat) :
    ∀ (order : List Nat) (acc : Func × List Nat),
      ∀ i ∈ (order.foldl (hoistStep dom L ph) acc).2, i ∈ acc.2 ∨ i ∈ order := by
  intro order
  induction order with
  | nil => intro acc i hi; exact Or.inl hi
  | cons j rest ih =>
    intro acc i hi
    rw [List.foldl_cons] at hi
    rcases ih (hoistStep dom L ph acc j) i hi with h | h
    · unfold hoistStep at h
      rcases hF : findInst acc.1 j with _ | I
      · rw [hF] at h
        exact Or.inl h
      · rw [hF] at h
        by_cases hc : (I.safeToSpec && dominatesAllLoopExits dom acc.1 L j) = true
        · simp only [hc, if_true] at h
          rcases List.mem_append.mp h with h | h
          · exact Or.inl h
          · exact Or.inr (by simp [List.mem_singleton.mp h])
        · simp only [Bool.not_eq_true] at hc
          simp only [hc, Bool.false_eq_true, if_false] at h
          exact Or.inl h
    · exact Or.inr (List.mem_cons_of_mem _ h)

/-- C6: a merge-point, or an instruction that may read or write memory,
is never admitted into the invariant set and is never among the hoisted
instructions, for ANY iteration order drawn from the invariant set. -/
theorem C6_phi_or_memory_never_hoisted (dom : Nat → Nat → Bool) (F : Func)
    (L : LICMLoop) (order : List Nat) (hWF : WFL F L)
    (horder : ∀ i ∈ order, i ∈ licmInvariantSet F L) :
    ∀ I ∈ loopInsts F L, (I.isPHI = true ∨ I.mayRWMem = true) →
      I.id ∉ licmInvariantSet F L ∧ I.id ∉ (licmRun dom F L order).2.1 := by
  intro I hI hflag
  have hnotin : I.id ∉ licmInvariantSet F L := by
    intro hmem
    have hLI := ((C5_invariant_set_is_least_closure F L hWF).1 I.id).mp hmem
    obtain ⟨I2, hmem2, hid2, hphi2, hrw2⟩ := LInv_elim F L I.id hLI
    have hII2 : I2 = I :=
      List.inj_on_of_nodup_map hWF.1 (hWF.2.2.1 I2 hmem2) (hWF.2.2.1 I hI) hid2
    rcases hflag with hf | hf
    · rw [hII2] at hphi2; rw [hphi2] at hf; exact absurd hf (by simp)
    · rw [hII2] at hrw2; rw [hrw2] at hf; exact absurd hf (by simp)
  refine ⟨hnotin, ?_⟩
  intro hmoved
  cases hph : L.preheaderId with
  | none =>
    unfold licmRun at hmoved
    rw [hph] at hmoved
    exact absurd hmoved (List.not_mem_nil I.id)
  | some ph =>
    unfold licmRun at hmoved
    rw [hph] at hmoved
    simp only [] at hmoved
    rcases hoistFold_moved_sub dom L ph order (F, []) I.id hmoved with h | h
    · exact absurd h (List.not_mem_nil I.id)
    · exact hnotin (horder I.id h)

/-- Instance of C6 on exF6: neither the merge-point (id 50) nor the
memory-reading instruction (id 51) is classified invariant or hoisted. -/
theorem C6_phi_or_memory_never_hoisted_witness :
    (WFL exF6 exL6 ∧ exPhi6 ∈ loopInsts exF6 exL6) ∧
    exPhi6.id ∉ licmInvariantSet exF6 exL6 ∧
    exPhi6.id ∉ (licmRun exDom1 exF6 exL6 [52]).2.1 :=
  ⟨⟨by decide, by decide⟩,
    C6_phi_or_memory_never_hoisted exDom1 exF6 exL6 [52] (by decide)
      (by decide) exPhi6 (by decide) (Or.inl (by decide))⟩


/-! ### Graph-surgery lemmas for the hoisting phase -/

theorem bool_ext {a b : Bool} (h : a = true ↔ b = true) : a = b := by
  cases a <;> cases b <;> simp_all

theorem mem_insertBeforeLast (I x : Inst) :
    ∀ (l : List Inst), x ∈ insertBeforeLast I l ↔ x = I ∨ x ∈ l := by
  intro l
  induction l with
  | nil => simp [insertBeforeLast]
  | cons a l ih =>
    cases l with
    | nil =>
      show x ∈ [I, a] ↔ x = I ∨ x ∈ [a]
      simp
    | cons b l2 =>
      show x ∈ a :: insertBeforeLast I (b :: l2) ↔ _
      simp only [List.mem_cons] at ih ⊢
      rw [ih]
      tauto

theorem insertBeforeLast_perm (I : Inst) :
    ∀ (l : List Inst), (insertBeforeLast I l).Perm (I :: l) := by
  intro l
  induction l with
  | nil => exact List.Perm.refl _
  | cons a l ih =>
    cases l with
    | nil => exact List.Perm.refl [I, a]
    | cons b l2 =>
      show (a :: insertBeforeLast I (b :: l2)).Perm (I :: a :: b :: l2)
      exact (List.Perm.cons a ih).trans (List.Perm.swap I a (b :: l2))

theorem insertBeforeLast_append (I : Inst) :
    ∀ (xs : List Inst) (t : Inst), insertBeforeLast I (xs ++ [t]) = xs ++ [I, t] := by
  intro xs t
  induction xs with
  | nil => rfl
  | cons a xs ih =>
    cases xs with
    | nil => rfl
    | cons b xs2 =>
      show a :: insertBeforeLast I ((b :: xs2) ++ [t]) = a :: ((b :: xs2) ++ [I, t])
      rw [ih]

theorem flatten_filter {α : Type} (p : α → Bool) :
    ∀ (l : List (List α)), (l.map (fun s => s.filter p)).flatten = l.flatten.filter p := by
  intro l
  induction l with
  | nil => rfl
  | cons s l ih =>
    simp only [List.map_cons, List.flatten_cons, List.filter_append, ih]

theorem mem_allInsts {F : Func} {I : Inst} :
    I ∈ F.allInsts ↔ ∃ B ∈ F.blocks, I ∈ B.insts := by
  unfold Func.allInsts
  simp only [List.mem_flatten, List.mem_map]
  constructor
  · rintro ⟨l, ⟨B, hB, rfl⟩, hI⟩
    exact ⟨B, hB, hI⟩
  · rintro ⟨B, hB, hI⟩
    exact ⟨B.insts, ⟨B, hB, rfl⟩, hI⟩

theorem removeInstEverywhere_allInsts (F : Func) (i : Nat) :
    (removeInstEverywhere F i).allInsts = F.allInsts.filter (fun J => !(J.id == i)) := by
  unfold removeInstEverywhere Func.allInsts
  rw [List.map_map]
  rw [show (Block.insts ∘ fun B : Block =>
      (⟨B.id, B.insts.filter (fun I => !(I.id == i))⟩ : Block)) =
      ((fun s => s.filter (fun I : Inst => !(I.id == i))) ∘ Block.insts) from rfl]
  rw [← List.map_map, flatten_filter]

theorem removeInstEverywhere_blockIds (F : Func) (i : Nat) :
    (removeInstEverywhere F i).blocks.map Block.id = F.blocks.map Block.id := by
  unfold removeInstEverywhere
  rw [List.map_map]
  rfl

/-- Block-id-preserving transformations commute with block lookup. -/
theorem findBlock_mapBlocks (F : Func) (bid : Nat) (f : Block → Block)
    (hf : ∀ B, (f B).id = B.id) :
    findBlock ⟨F.blocks.map f⟩ bid = (findBlock F bid).map f := by
  unfold findBlock
  rw [List.find?_map]
  rw [show ((fun B : Block => B.id == bid) ∘ f) = (fun B : Block => B.id == bid) from
    funext fun B => by simp [Function.comp, hf B]]

/-- Block-id-preserving, presence-preserving transformations leave every
parent lookup unchanged. -/
theorem parentOf_mapBlocks (F : Func) (j : Nat) (f : Block → Block)
    (hid : ∀ B, (f B).id = B.id)
    (hany : ∀ B : Block, ((f B).insts.any (fun J => J.id == j)) =
      (B.insts.any (fun J => J.id == j))) :
    parentOf ⟨F.blocks.map f⟩ j = parentOf F j := by
  unfold parentOf
  rw [List.find?_map]
  rw [show ((fun B : Block => B.insts.any (fun J => J.id == j)) ∘ f) =
      (fun B : Block => B.insts.any (fun J => J.id == j)) from
    funext fun B => by simp only [Function.comp]; exact hany B]
  cases F.blocks.find? (fun B : Block => B.insts.any (fun J => J.id == j)) with
  | none => rfl
  | some B => simp [hid B]

theorem any_filter_ne (l : List Inst) (i j : Nat) (hij : j ≠ i) :
    (l.filter (fun J => !(J.id == i))).any (fun J => J.id == j) =
    l.any (fun J => J.id == j) := by
  apply bool_ext
  simp only [List.any_eq_true, List.mem_filter]
  constructor
  · rintro ⟨J, ⟨hJ, _⟩, hq⟩
    exact ⟨J, hJ, hq⟩
  · rintro ⟨J, hJ, hq⟩
    have hJj : J.id = j := by simpa using hq
    refine ⟨J, ⟨hJ, ?_⟩, hq⟩
    simp [hJj, hij]

theorem any_insertBeforeLast (I : Inst) (l : List Inst) (q : Inst → Bool) :
    (insertBeforeLast I l).any q = (q I || l.any q) := by
  apply bool_ext
  simp only [List.any_eq_true, Bool.or_eq_true]
  constructor
  · rintro ⟨J, hJ, hq⟩
    rcases (mem_insertBeforeLast I J l).mp hJ with rfl | hJ2
    · exact Or.inl hq
    · exact Or.inr ⟨J, hJ2, hq⟩
  · rintro (hq | ⟨J, hJ, hq⟩)
    · exact ⟨I, (mem_insertBeforeLast I I l).mpr (Or.inl rfl), hq⟩
    · exact ⟨J, (mem_insertBeforeLast I J l).mpr (Or.inr hJ), hq⟩

/-- Moving one instruction into the preheader does not change any other
instruction's parent block. -/
theorem parentOf_moveBeforeTerm (F : Func) (ph i j : Nat) (hij : j ≠ i) :
    parentOf (moveBeforeTerm F ph i) j = parentOf F j := by
  unfold moveBeforeTerm
  cases hF : findInst F i with
  | none => rfl
  | some I =>
    have hIid : I.id = i := by simpa using List.find?_some hF
    have h2 : parentOf ⟨(removeInstEverywhere F i).blocks.map
        (fun B => if B.id == ph then
          (⟨B.id, insertBeforeLast I B.insts⟩ : Block) else B)⟩ j =
        parentOf (removeInstEverywhere F i) j := by
      apply parentOf_mapBlocks
      · intro B
        by_cases hB : (B.id == ph) = true
        · simp [hB]
        · simp only [Bool.not_eq_true] at hB
          simp [hB]
      · intro B
        by_cases hB : (B.id == ph) = true
        · simp only [hB, if_true]
          rw [any_insertBeforeLast]
          have hIj : (I.id == j) = false := by
            rw [hIid]
            exact beq_false_of_ne (Ne.symm hij)
          rw [hIj]
          rfl
        · simp only [Bool.not_eq_true] at hB
          simp [hB]
    have h3 : parentOf (removeInstEverywhere F i) j = parentOf F j := by
      unfold removeInstEverywhere
      apply parentOf_mapBlocks
      · intro B; rfl
      · intro B
        exact any_filter_ne B.insts i j hij
    exact h2.trans h3

/-- With duplicate-free ids, removing then re-inserting the unique record
carrying an id keeps the instruction multiset intact. -/
theorem cons_filter_perm : ∀ (l : List Inst) (I : Inst),
    (l.map Inst.id).Nodup → I ∈ l →
    (I :: l.filter (fun J => !(J.id == I.id))).Perm l := by
  intro l
  induction l with
  | nil => intro I _ hI; cases hI
  | cons a l ih =>
    intro I hnd hI
    rw [List.map_cons, List.nodup_cons] at hnd
    rcases List.mem_cons.mp hI with rfl | hI2
    · have hfl : l.filter (fun J => !(J.id == I.id)) = l := by
        rw [List.filter_eq_self]
        intro J hJ
        have hne : J.id ≠ I.id := fun he => hnd.1 (List.mem_map.mpr ⟨J, hJ, he⟩)
        simp [hne]
      rw [List.filter_cons]
      simp [hfl]
    · have haid : (a.id == I.id) = false := by
        apply beq_false_of_ne
        intro he
        exact hnd.1 (List.mem_map.mpr ⟨I, hI2, he.symm⟩)
      rw [List.filter_cons]
      simp only [haid, Bool.not_false, if_true]
      exact (List.Perm.swap a I _).trans (List.Perm.cons a (ih I hnd.2 hI2))

theorem allInsts_decomp (l1 l2 : List Block) (B : Block) :
    Func.allInsts ⟨l1 ++ B :: l2⟩ =
    Func.allInsts ⟨l1⟩ ++ B.insts ++ Func.allInsts ⟨l2⟩ := by
  unfold Func.allInsts
  simp [List.map_append, List.flatten_append, List.append_assoc]

/-- `moveBefore` permutes the function's instructions. -/
theorem moveBeforeTerm_perm (F : Func) (ph i : Nat) (I : Inst)
    (hnd : (F.allInsts.map Inst.id).Nodup)
    (hbids : (F.blocks.map Block.id).Nodup)
    (hF : findInst F i = some I)
    (hph : ∃ B ∈ F.blocks, B.id = ph) :
    (moveBeforeTerm F ph i).allInsts.Perm F.allInsts := by
  have hIid : I.id = i := by simpa using List.find?_some hF
  have hImem : I ∈ F.allInsts := List.mem_of_find?_eq_some hF
  unfold moveBeforeTerm
  rw [hF]
  obtain ⟨B0, hB0mem, hB0id⟩ := hph
  have hB1mem : (⟨B0.id, B0.insts.filter (fun I => !(I.id == i))⟩ : Block) ∈
      (removeInstEverywhere F i).blocks := by
    unfold removeInstEverywhere
    exact List.mem_map.mpr ⟨B0, hB0mem, rfl⟩
  obtain ⟨l1, l2, hdecomp⟩ := List.append_of_mem hB1mem
  have hbids1 : ((removeInstEverywhere F i).blocks.map Block.id).Nodup := by
    rw [removeInstEverywhere_blockIds]
    exact hbids
  have hnotin : ∀ B2 ∈ l1 ++ l2, B2.id ≠ ph := by
    rw [hdecomp, List.map_append, List.map_cons] at hbids1
    have h2 := List.nodup_middle.mp hbids1
    rw [List.nodup_cons] at h2
    intro B2 hB2 he
    apply h2.1
    rw [← List.map_append]
    refine List.mem_map.mpr ⟨B2, hB2, ?_⟩
    rw [he]
    exact hB0id.symm
  have hmapg : (removeInstEverywhere F i).blocks.map
      (fun B => if B.id == ph then
        (⟨B.id, insertBeforeLast I B.insts⟩ : Block) else B) =
      l1 ++ (⟨B0.id, insertBeforeLast I
        (B0.insts.filter (fun I => !(I.id == i)))⟩ : Block) :: l2 := by
    rw [hdecomp, List.map_append, List.map_cons]
    have hl1 : l1.map (fun B => if B.id == ph then
        (⟨B.id, insertBeforeLast I B.insts⟩ : Block) else B) = l1 := by
      rw [List.map_congr_left (g := id), List.map_id]
      intro B2 hB2
      simp [beq_false_of_ne (hnotin B2 (List.mem_append_left _ hB2))]
    have hl2 : l2.map (fun B => if B.id == ph then
        (⟨B.id, insertBeforeLast I B.insts⟩ : Block) else B) = l2 := by
      rw [List.map_congr_left (g := id), List.map_id]
      intro B2 hB2
      simp [beq_false_of_ne (hnotin B2 (List.mem_append_right _ hB2))]
    rw [hl1, hl2]
    congr 1
    simp [hB0id]
  show (Func.mk ((removeInstEverywhere F i).blocks.map _)).allInsts.Perm F.allInsts
  rw [hmapg, allInsts_decomp]
  have hdecompAll : (removeInstEverywhere F i).allInsts =
      Func.allInsts ⟨l1⟩ ++ B0.insts.filter (fun I => !(I.id == i)) ++
      Func.allInsts ⟨l2⟩ := by
    conv =>
      lhs
      rw [show (removeInstEverywhere F i) =
        ⟨l1 ++ (⟨B0.id, B0.insts.filter (fun I => !(I.id == i))⟩ : Block) :: l2⟩ from by
          cases hR : removeInstEverywhere F i
          congr 1
          rw [← hdecomp, hR]]
    exact allInsts_decomp l1 l2 _
  rw [List.append_assoc]
  refine List.Perm.trans (List.Perm.append_left _
    ((insertBeforeLast_perm I _).append_right _)) ?_
  refine List.Perm.trans List.perm_middle ?_
  show (I :: (Func.allInsts ⟨l1⟩ ++ (B0.insts.filter (fun I => !(I.id == i)) ++
    Func.allInsts ⟨l2⟩))).Perm F.allInsts
  rw [← List.append_assoc, ← hdecompAll, removeInstEverywhere_allInsts]
  have hcfp := cons_filter_perm F.allInsts I hnd hImem
  rw [hIid] at hcfp
  exact hcfp

theorem moveBeforeTerm_blockIds (F : Func) (ph i : Nat) :
    (moveBeforeTerm F ph i).blocks.map Block.id = F.blocks.map Block.id := by
  unfold moveBeforeTerm
  cases hF : findInst F i with
  | none => rfl
  | some I =>
    show ((removeInstEverywhere F i).blocks.map _).map Block.id = _
    rw [List.map_map, ← removeInstEverywhere_blockIds F i]
    apply List.map_congr_left
    intro B _
    by_cases hB : (B.id == ph) = true
    · simp [Function.comp, hB]
    · simp only [Bool.not_eq_true] at hB
      simp [Function.comp, hB]


theorem findInst_eq_some_iff {F : Func} (hnd : (F.allInsts.map Inst.id).Nodup)
    {i : Nat} {I : Inst} :
    findInst F i = some I ↔ I ∈ F.allInsts ∧ I.id = i := by
  constructor
  · intro h
    have h1 := List.mem_of_find?_eq_some h
    have h2 := List.find?_some h
    simp only [beq_iff_eq] at h2
    exact ⟨h1, h2⟩
  · rintro ⟨hmem, rfl⟩
    cases hF : findInst F I.id with
    | none =>
      unfold findInst at hF
      rw [List.find?_eq_none] at hF
      exact absurd (by simp : (I.id == I.id) = true) (hF I hmem)
    | some J =>
      have h1 := List.mem_of_find?_eq_some hF
      have h2 := List.find?_some hF
      simp only [beq_iff_eq] at h2
      rw [List.inj_on_of_nodup_map hnd h1 hmem h2]

/-- Instruction lookup only depends on the multiset of instructions, for
duplicate-free ids. -/
theorem findInst_of_perm {F F2 : Func} (hnd : (F2.allInsts.map Inst.id).Nodup)
    (hperm : F.allInsts.Perm F2.allInsts) : ∀ j, findInst F j = findInst F2 j := by
  intro j
  have hnd1 : (F.allInsts.map Inst.id).Nodup := ((hperm.map Inst.id).nodup_iff).mpr hnd
  cases hF : findInst F2 j with
  | some J =>
    exact (findInst_eq_some_iff hnd1).mpr
      ⟨hperm.mem_iff.mpr ((findInst_eq_some_iff hnd).mp hF).1,
       ((findInst_eq_some_iff hnd).mp hF).2⟩
  | none =>
    cases hG : findInst F j with
    | none => rfl
    | some J =>
      have h2 := (findInst_eq_some_iff hnd).mpr
        ⟨hperm.mem_iff.mp ((findInst_eq_some_iff hnd1).mp hG).1,
         ((findInst_eq_some_iff hnd1).mp hG).2⟩
      rw [h2] at hF
      exact absurd hF (by simp)

theorem dominatesAllLoopExits_congr (dom : Nat → Nat → Bool) (F F2 : Func)
    (L : LICMLoop) (i : Nat) (hpar : parentOf F i = parentOf F2 i) :
    dominatesAllLoopExits dom F L i = dominatesAllLoopExits dom F2 L i := by
  unfold dominatesAllLoopExits instDominatesBlock
  rw [hpar]

/-- With duplicate-free instruction ids, a block other than an
instruction's parent holds no record with that instruction's id. -/
theorem phblock_no_id (F : Func) (ph i b : Nat) (Bph : Block)
    (hnd : (F.allInsts.map Inst.id).Nodup)
    (hfb : findBlock F ph = some Bph)
    (hpar : parentOf F i = some b) (hbne : b ≠ ph) :
    ∀ J ∈ Bph.insts, J.id ≠ i := by
  intro J hJ he
  have hBphid : Bph.id = ph := by simpa using List.find?_some hfb
  have hBphmem : Bph ∈ F.blocks := List.mem_of_find?_eq_some hfb
  unfold parentOf at hpar
  cases hfq : F.blocks.find? (fun B => B.insts.any (fun I => I.id == i)) with
  | none => rw [hfq] at hpar; exact absurd hpar (by simp)
  | some B2 =>
    rw [hfq] at hpar
    have hB2id : B2.id = b := by simpa using hpar
    have hB2mem := List.mem_of_find?_eq_some hfq
    have hq := List.find?_some hfq
    rw [List.any_eq_true] at hq
    obtain ⟨K, hK, hKid⟩ := hq
    have hKi : K.id = i := by simpa using hKid
    obtain ⟨s, t, hst⟩ := List.append_of_mem hBphmem
    have hAll : F.allInsts = Func.allInsts ⟨s⟩ ++ Bph.insts ++ Func.allInsts ⟨t⟩ := by
      have h0 : F.allInsts = Func.allInsts ⟨s ++ Bph :: t⟩ := by
        unfold Func.allInsts
        rw [hst]
      rw [h0, allInsts_decomp]
    have hB2cases : B2 ∈ s ∨ B2 = Bph ∨ B2 ∈ t := by
      have hm := hB2mem
      rw [hst] at hm
      rcases List.mem_append.mp hm with h | h
      · exact Or.inl h
      · rcases List.mem_cons.mp h with h | h
        · exact Or.inr (Or.inl h)
        · exact Or.inr (Or.inr h)
    rcases hB2cases with hc | hc | hc
    · have h1 : i ∈ (Func.allInsts ⟨s⟩).map Inst.id :=
        List.mem_map.mpr ⟨K, mem_allInsts.mpr ⟨B2, hc, hK⟩, hKi⟩
      have h2 : i ∈ (Bph.insts ++ Func.allInsts ⟨t⟩).map Inst.id := by
        rw [List.map_append]
        exact List.mem_append_left _ (List.mem_map.mpr ⟨J, hJ, he⟩)
      rw [hAll, List.append_assoc, List.map_append] at hnd
      exact List.disjoint_of_nodup_append hnd h1 h2
    · rw [hc, hBphid] at hB2id
      exact hbne hB2id.symm
    · have h1 : i ∈ (Func.allInsts ⟨s⟩ ++ Bph.insts).map Inst.id := by
        rw [List.map_append]
        exact List.mem_append_right _ (List.mem_map.mpr ⟨J, hJ, he⟩)
      have h2 : i ∈ (Func.allInsts ⟨t⟩).map Inst.id :=
        List.mem_map.mpr ⟨K, mem_allInsts.mpr ⟨B2, hc, hK⟩, hKi⟩
      rw [hAll, List.map_append] at hnd
      exact List.disjoint_of_nodup_append hnd h1 h2

/-- Complete description of the hoisting loop of lines 101-106: starting
from a state reachable from the pre-pass graph `F0` (instruction multiset
preserved, block ids unchanged, not-yet-moved parents unchanged, moved
records sitting before the preheader terminator), processing `order`
moves exactly the records passing the static checks `hoistedRecs`,
appends them before the preheader terminator in iteration order, and
touches nothing else. -/
theorem hoistFold_spec (dom : Nat → Nat → Bool) (F0 : Func) (L : LICMLoop) (ph : Nat)
    (hnd0 : (F0.allInsts.map Inst.id).Nodup)
    (hbids0 : (F0.blocks.map Block.id).Nodup)
    (hnotph : ph ∉ L.blockIds) :
    ∀ (order : List Nat) (F : Func) (movedRecs pre : List Inst) (t : Inst),
      order.Nodup →
      (∀ i ∈ order, containsInst F0 L i = true) →
      (∀ i ∈ order, ∀ r ∈ movedRecs, r.id ≠ i) →
      F.allInsts.Perm F0.allInsts →
      F.blocks.map Block.id = F0.blocks.map Block.id →
      (∀ j, (∀ r ∈ movedRecs, r.id ≠ j) → parentOf F j = parentOf F0 j) →
      findBlock F ph = some ⟨ph, pre ++ movedRecs ++ [t]⟩ →
      (order.foldl (hoistStep dom L ph) (F, movedRecs.map Inst.id)).2 =
        (movedRecs ++ hoistedRecs dom F0 L order).map Inst.id ∧
      (order.foldl (hoistStep dom L ph) (F, movedRecs.map Inst.id)).1.allInsts.Perm
        F0.allInsts ∧
      (order.foldl (hoistStep dom L ph) (F, movedRecs.map Inst.id)).1.blocks.map Block.id =
        F0.blocks.map Block.id ∧
      (∀ j, (∀ r ∈ movedRecs ++ hoistedRecs dom F0 L order, r.id ≠ j) →
        parentOf (order.foldl (hoistStep dom L ph) (F, movedRecs.map Inst.id)).1 j =
          parentOf F0 j) ∧
      findBlock (order.foldl (hoistStep dom L ph) (F, movedRecs.map Inst.id)).1 ph =
        some ⟨ph, pre ++ (movedRecs ++ hoistedRecs dom F0 L order) ++ [t]⟩ := by
  intro order
  induction order with
  | nil =>
    intro F movedRecs pre t hndo hco hdisj hperm hbid hstab hfb
    refine ⟨?_, hperm, hbid, ?_, ?_⟩
    · simp [hoistedRecs]
    · intro j hj
      exact hstab j (fun r hr => hj r (by simpa [hoistedRecs] using hr))
    · simpa [hoistedRecs] using hfb
  | cons i rest ih =>
    intro F movedRecs pre t hndo hco hdisj hperm hbid hstab hfb
    have hndF : (F.allInsts.map Inst.id).Nodup :=
      ((hperm.map Inst.id).nodup_iff).mpr hnd0
    have hfi : findInst F i = findInst F0 i := findInst_of_perm hnd0 hperm i
    have hstep : (i :: rest).foldl (hoistStep dom L ph) (F, movedRecs.map Inst.id) =
        rest.foldl (hoistStep dom L ph)
          (hoistStep dom L ph (F, movedRecs.map Inst.id) i) := rfl
    rw [hstep]
    cases hFI : findInst F0 i with
    | none =>
      have hs : hoistStep dom L ph (F, movedRecs.map Inst.id) i =
          (F, movedRecs.map Inst.id) := by
        unfold hoistStep
        rw [show findInst (F, movedRecs.map Inst.id).1 i = Option.none from
          hfi.trans hFI]
      rw [hs]
      have hrecs : hoistedRecs dom F0 L (i :: rest) = hoistedRecs dom F0 L rest := by
        unfold hoistedRecs
        refine List.filterMap_cons_none ?_
        unfold hoistChoice
        rw [hFI]
      rw [hrecs]
      exact ih F movedRecs pre t (List.nodup_cons.mp hndo).2
        (fun j hj => hco j (List.mem_cons_of_mem _ hj))
        (fun j hj => hdisj j (List.mem_cons_of_mem _ hj))
        hperm hbid hstab hfb
    | some I =>
      have hIid : I.id = i := by
        have := (findInst_eq_some_iff hnd0).mp hFI
        exact this.2
      have hinotmoved : ∀ r ∈ movedRecs, r.id ≠ i :=
        hdisj i (List.mem_cons_self i rest)
      have hpari : parentOf F i = parentOf F0 i := hstab i hinotmoved
      have hcond : (I.safeToSpec && dominatesAllLoopExits dom F L i) =
          (I.safeToSpec && dominatesAllLoopExits dom F0 L i) := by
        rw [dominatesAllLoopExits_congr dom F F0 L i hpari]
      cases hc : (I.safeToSpec && dominatesAllLoopExits dom F0 L i) with
      | false =>
        have hs : hoistStep dom L ph (F, movedRecs.map Inst.id) i =
            (F, movedRecs.map Inst.id) := by
          unfold hoistStep
          rw [show findInst (F, movedRecs.map Inst.id).1 i = some I from hfi.trans hFI]
          show (if (I.safeToSpec && dominatesAllLoopExits dom F L i) = true
              then (moveBeforeTerm F ph i, movedRecs.map Inst.id ++ [i])
              else (F, movedRecs.map Inst.id)) = (F, movedRecs.map Inst.id)
          rw [hcond, hc]
          simp
        rw [hs]
        have hrecs : hoistedRecs dom F0 L (i :: rest) = hoistedRecs dom F0 L rest := by
          unfold hoistedRecs
          refine List.filterMap_cons_none ?_
          unfold hoistChoice
          rw [hFI]
          simp [hc]
        rw [hrecs]
        exact ih F movedRecs pre t (List.nodup_cons.mp hndo).2
          (fun j hj => hco j (List.mem_cons_of_mem _ hj))
          (fun j hj => hdisj j (List.mem_cons_of_mem _ hj))
          hperm hbid hstab hfb
      | true =>
        have hs : hoistStep dom L ph (F, movedRecs.map Inst.id) i =
            (moveBeforeTerm F ph i, movedRecs.map Inst.id ++ [i]) := by
          unfold hoistStep
          rw [show findInst (F, movedRecs.map Inst.id).1 i = some I from hfi.trans hFI]
          show (if (I.safeToSpec && dominatesAllLoopExits dom F L i) = true
              then (moveBeforeTerm F ph i, movedRecs.map Inst.id ++ [i])
              else (F, movedRecs.map Inst.id)) =
            (moveBeforeTerm F ph i, movedRecs.map Inst.id ++ [i])
          rw [hcond, hc]
          simp
        rw [hs]
        have hrecs : hoistedRecs dom F0 L (i :: rest) =
            I :: hoistedRecs dom F0 L rest := by
          unfold hoistedRecs
          refine List.filterMap_cons_some ?_
          unfold hoistChoice
          rw [hFI]
          simp [hc]
        rw [hrecs]
        have hmap2 : movedRecs.map Inst.id ++ [i] = (movedRecs ++ [I]).map Inst.id := by
          rw [List.map_append, List.map_cons, List.map_nil, hIid]
        rw [hmap2]
        have hfiF : findInst F i = some I := hfi.trans hFI
        have hbidsF : (F.blocks.map Block.id).Nodup := by rw [hbid]; exact hbids0
        have hphex : ∃ B ∈ F.blocks, B.id = ph :=
          ⟨⟨ph, pre ++ movedRecs ++ [t]⟩, List.mem_of_find?_eq_some hfb, rfl⟩
        have hperm2 : (moveBeforeTerm F ph i).allInsts.Perm F0.allInsts :=
          (moveBeforeTerm_perm F ph i I hndF hbidsF hfiF hphex).trans hperm
        have hbid2 : (moveBeforeTerm F ph i).blocks.map Block.id =
            F0.blocks.map Block.id := by
          rw [moveBeforeTerm_blockIds, hbid]
        have hstab2 : ∀ j, (∀ r ∈ movedRecs ++ [I], r.id ≠ j) →
            parentOf (moveBeforeTerm F ph i) j = parentOf F0 j := by
          intro j hj
          have hji : j ≠ i := by
            intro he
            exact hj I (List.mem_append_right _ (List.mem_singleton.mpr rfl))
              (by rw [hIid, he])
          rw [parentOf_moveBeforeTerm F ph i j hji]
          exact hstab j (fun r hr => hj r (List.mem_append_left _ hr))
        -- parent of i in F0 : some in-loop block, distinct from ph
        have hpar0 : ∃ b, parentOf F0 i = some b ∧ b ≠ ph := by
          have hcoi := hco i (List.mem_cons_self i rest)
          unfold containsInst at hcoi
          cases hp : parentOf F0 i with
          | none => rw [hp] at hcoi; exact absurd hcoi (by simp)
          | some b =>
            rw [hp] at hcoi
            refine ⟨b, rfl, ?_⟩
            intro he
            rw [he] at hcoi
            exact hnotph (contains_mem.mp hcoi)
        obtain ⟨b, hparb, hbne⟩ := hpar0
        have hnoid : ∀ J ∈ (pre ++ movedRecs ++ [t] : List Inst), J.id ≠ i :=
          phblock_no_id F ph i b ⟨ph, pre ++ movedRecs ++ [t]⟩ hndF hfb
            (hpari.trans hparb) hbne
        have hfb2 : findBlock (moveBeforeTerm F ph i) ph =
            some ⟨ph, pre ++ (movedRecs ++ [I]) ++ [t]⟩ := by
          unfold moveBeforeTerm
          rw [hfiF]
          rw [show removeInstEverywhere F i =
            (⟨F.blocks.map (fun B => (⟨B.id,
              B.insts.filter (fun I => !(I.id == i))⟩ : Block))⟩ : Func) from rfl]
          rw [findBlock_mapBlocks]
          · rw [findBlock_mapBlocks]
            · rw [hfb]
              have hfilter : (pre ++ movedRecs ++ [t]).filter
                  (fun J => !(J.id == i)) = pre ++ movedRecs ++ [t] := by
                rw [List.filter_eq_self]
                intro J hJ
                simp [beq_false_of_ne (hnoid J hJ)]
              show some ((fun B : Block => if B.id == ph then
                  (⟨B.id, insertBeforeLast I B.insts⟩ : Block) else B)
                ((fun B : Block =>
                  (⟨B.id, B.insts.filter (fun I => !(I.id == i))⟩ : Block))
                  (⟨ph, pre ++ movedRecs ++ [t]⟩ : Block))) =
                some (⟨ph, pre ++ (movedRecs ++ [I]) ++ [t]⟩ : Block)
              congr 1
              have h1 : (fun B : Block =>
                  (⟨B.id, B.insts.filter (fun I => !(I.id == i))⟩ : Block))
                  (⟨ph, pre ++ movedRecs ++ [t]⟩ : Block) =
                  (⟨ph, pre ++ movedRecs ++ [t]⟩ : Block) := by
                show Block.mk ph ((pre ++ movedRecs ++ [t]).filter
                  (fun I => !(I.id == i))) = _
                rw [hfilter]
              rw [h1]
              show (if (ph == ph) = true then
                  (⟨ph, insertBeforeLast I (pre ++ movedRecs ++ [t])⟩ : Block)
                else (⟨ph, pre ++ movedRecs ++ [t]⟩ : Block)) = _
              rw [if_pos (by simp)]
              rw [insertBeforeLast_append]
              simp [List.append_assoc]
            · intro B; rfl
          · intro B
            by_cases hB : (B.id == ph) = true
            · simp [hB]
            · simp only [Bool.not_eq_true] at hB
              simp [hB]
        have hndr := (List.nodup_cons.mp hndo).2
        have hinr : i ∉ rest := (List.nodup_cons.mp hndo).1
        have hdisj2 : ∀ j ∈ rest, ∀ r ∈ movedRecs ++ [I], r.id ≠ j := by
          intro j hj r hr
          rcases List.mem_append.mp hr with hr | hr
          · exact hdisj j (List.mem_cons_of_mem _ hj) r hr
          · rw [List.mem_singleton.mp hr, hIid]
            intro he
            rw [he] at hinr
            exact hinr hj
        obtain ⟨c1, c2, c3, c4, c5⟩ := ih (moveBeforeTerm F ph i) (movedRecs ++ [I])
          pre t hndr (fun j hj => hco j (List.mem_cons_of_mem _ hj)) hdisj2
          hperm2 hbid2 hstab2 hfb2
        have hassoc : (movedRecs ++ [I]) ++ hoistedRecs dom F0 L rest =
            movedRecs ++ I :: hoistedRecs dom F0 L rest := by
          rw [List.append_assoc]
          rfl
        rw [hassoc] at c1 c4 c5
        exact ⟨c1, c2, c3, c4, c5⟩


/-- Membership in the moved-record list is exactly the static hoisting
condition together with membership in the iteration order. -/
theorem mem_hoistedRecs (dom : Nat → Nat → Bool) (F : Func) (L : LICMLoop)
    (order : List Nat) (i : Nat) :
    i ∈ (hoistedRecs dom F L order).map Inst.id ↔
      i ∈ order ∧ hoistCond dom F L i = true := by
  unfold hoistedRecs hoistChoice hoistCond
  rw [List.mem_map]
  constructor
  · rintro ⟨I, hI, rfl⟩
    rw [List.mem_filterMap] at hI
    obtain ⟨j, hj, hf⟩ := hI
    cases hFI : findInst F j with
    | none => rw [hFI] at hf; exact absurd hf (by simp)
    | some J =>
      rw [hFI] at hf
      cases hc : (J.safeToSpec && dominatesAllLoopExits dom F L j) with
      | false => simp [hc] at hf
      | true =>
        simp only [hc, if_true] at hf
        have hIJ : J = I := by simpa using hf
        have hJj : J.id = j := by simpa using List.find?_some hFI
        subst hIJ
        rw [hJj]
        refine ⟨hj, ?_⟩
        rw [hFI]
        show (J.safeToSpec && dominatesAllLoopExits dom F L j) = true
        exact hc
  · rintro ⟨hio, hci⟩
    cases hFI : findInst F i with
    | none => rw [hFI] at hci; exact absurd hci (by simp)
    | some J =>
      rw [hFI] at hci
      have hci2 : (J.safeToSpec && dominatesAllLoopExits dom F L i) = true := hci
      have hJi : J.id = i := by simpa using List.find?_some hFI
      refine ⟨J, ?_, hJi⟩
      rw [List.mem_filterMap]
      refine ⟨i, hio, ?_⟩
      rw [hFI]
      show (if (J.safeToSpec && dominatesAllLoopExits dom F L i) = true then some J
        else Option.none) = some J
      rw [if_pos hci2]

/-- C4 amended: the Invariant Hoister moves an instruction of the
iteration order if and only if it is safe to execute speculatively AND
its ORIGINAL definition point dominates every loop exit (`hoistCond`);
by dominance transitivity the post-move point also dominates every exit
(the claim's condition (b)), but the converse fails, and instructions
failing the original-position check stay in their original block even
when (b) holds. -/
theorem C4_hoist_iff_original_position_dominates (dom : Nat → Nat → Bool)
    (F : Func) (L : LICMLoop) (ph : Nat) (order : List Nat) (pre : List Inst) (t : Inst)
    (hnd : (F.allInsts.map Inst.id).Nodup)
    (hbids : (F.blocks.map Block.id).Nodup)
    (hph : L.preheaderId = some ph)
    (hnotph : ph ∉ L.blockIds)
    (hndo : order.Nodup)
    (hco : ∀ i ∈ order, containsInst F L i = true)
    (hfb : findBlock F ph = some ⟨ph, pre ++ [t]⟩) :
    ((licmRun dom F L order).2.1 = (hoistedRecs dom F L order).map Inst.id) ∧
    (∀ i, i ∈ (licmRun dom F L order).2.1 ↔ i ∈ order ∧ hoistCond dom F L i = true) ∧
    ((∀ a b c, dom a b = true → dom b c = true → dom a c = true) →
      (∀ b ∈ L.blockIds, dom ph b = true) →
      ph ∉ L.exitBlockIds →
      ∀ i ∈ (licmRun dom F L order).2.1, preheaderDominatesExits dom L ph = true) ∧
    (∀ i ∈ order, hoistCond dom F L i = false →
      parentOf (licmRun dom F L order).1 i = parentOf F i ∧
      i ∉ (licmRun dom F L order).2.1) := by
  have hrun : licmRun dom F L order =
      ((order.foldl (hoistStep dom L ph) (F, ([] : List Inst).map Inst.id)).1,
       (order.foldl (hoistStep dom L ph) (F, ([] : List Inst).map Inst.id)).2,
       Preserved.none) := by
    unfold licmRun
    rw [hph]
    rfl
  obtain ⟨c1, c2, c3, c4, c5⟩ := hoistFold_spec dom F L ph hnd hbids hnotph order F
    [] pre t hndo hco (by intro i hi r hr; cases hr) (List.Perm.refl _) rfl
    (fun j hj => rfl) (by simpa using hfb)
  have hmoved : (licmRun dom F L order).2.1 = (hoistedRecs dom F L order).map Inst.id := by
    rw [hrun]
    simpa using c1
  refine ⟨hmoved, ?_, ?_, ?_⟩
  · intro i
    rw [hmoved]
    exact mem_hoistedRecs dom F L order i
  · intro htrans hphdom hexit i hi
    rw [hmoved, mem_hoistedRecs] at hi
    obtain ⟨hio, hci⟩ := hi
    unfold hoistCond at hci
    cases hFI : findInst F i with
    | none => rw [hFI] at hci; exact absurd hci (by simp)
    | some I =>
      rw [hFI] at hci
      have hci2 : (I.safeToSpec && dominatesAllLoopExits dom F L i) = true := hci
      rw [Bool.and_eq_true] at hci2
      have hdall := hci2.2
      unfold dominatesAllLoopExits at hdall
      rw [List.all_eq_true] at hdall
      unfold preheaderDominatesExits
      rw [List.all_eq_true]
      intro e he
      have hde := hdall e he
      unfold instDominatesBlock at hde
      cases hpe : parentOf F i with
      | none => rw [hpe] at hde; exact absurd hde (by simp)
      | some b =>
        rw [hpe] at hde
        rw [Bool.and_eq_true] at hde
        have hbin : b ∈ L.blockIds := by
          have hcoi := hco i hio
          unfold containsInst at hcoi
          rw [hpe] at hcoi
          exact contains_mem.mp hcoi
        have hphb : dom ph b = true := hphdom b hbin
        have hphe : dom ph e = true := htrans ph b e hphb hde.2
        have hpne : ph ≠ e := fun heq => hexit (heq ▸ he)
        rw [Bool.and_eq_true]
        exact ⟨by simp [beq_false_of_ne hpne], hphe⟩
  · intro i hio hci
    have hnomem : i ∉ (licmRun dom F L order).2.1 := by
      rw [hmoved, mem_hoistedRecs]
      rintro ⟨_, hc2⟩
      rw [hci] at hc2
      exact absurd hc2 (by simp)
    refine ⟨?_, hnomem⟩
    rw [hrun]
    show parentOf (order.foldl (hoistStep dom L ph) (F, ([] : List Inst).map Inst.id)).1 i
      = parentOf F i
    rw [c4 i ?_]
    · intro r hr
      rw [List.nil_append] at hr
      intro he
      have : r.id ∈ (hoistedRecs dom F L order).map Inst.id := List.mem_map.mpr ⟨r, hr, rfl⟩
      rw [mem_hoistedRecs] at this
      rw [he, hci] at this
      exact absurd this.2 (by simp)

/-- Instance of the amended C4 on the diamond loop exF4: nothing is
moved, because no invariant instruction passes the original-position
dominance check there. -/
theorem C4_hoist_iff_original_position_dominates_witness :
    (licmRun exDom4 exF4 exL4 [23, 30, 31]).2.1 =
      (hoistedRecs exDom4 exF4 exL4 [23, 30, 31]).map Inst.id :=
  (C4_hoist_iff_original_position_dominates exDom4 exF4 exL4 1 [23, 30, 31]
    [] (exTerm 10) (by decide) (by decide) rfl (by decide) (by decide)
    (by decide) (by decide)).1


/-- C1 amended: when the unordered invariant set is iterated in an order
in which every instruction comes after its in-loop operand instructions
that are also in the order (as original program order does), every
hoisted instruction ends up in the preheader strictly after each of its
hoisted operand instructions - no use before definition among the moved
instructions.  For an arbitrary iteration order of the unordered pointer
set this fails, as the counterexample shows. -/
theorem C1_operand_precedes_user_for_ordered_iteration (dom : Nat → Nat → Bool)
    (F : Func) (L : LICMLoop) (ph : Nat) (order : List Nat) (pre : List Inst) (t : Inst)
    (hnd : (F.allInsts.map Inst.id).Nodup)
    (hbids : (F.blocks.map Block.id).Nodup)
    (hph : L.preheaderId = some ph)
    (hnotph : ph ∉ L.blockIds)
    (hndo : order.Nodup)
    (hco : ∀ i ∈ order, containsInst F L i = true)
    (hfb : findBlock F ph = some ⟨ph, pre ++ [t]⟩)
    (hprec : ∀ U : Inst, U ∈ F.allInsts → U.id ∈ order →
      ∀ oid, Value.inst oid ∈ U.operands → oid ∈ order →
        ([oid, U.id] : List Nat).Sublist order) :
    ∀ U : Inst, U ∈ F.allInsts → U.id ∈ (licmRun dom F L order).2.1 →
      ∀ oid, Value.inst oid ∈ U.operands → oid ∈ (licmRun dom F L order).2.1 →
      ∃ B O, findBlock (licmRun dom F L order).1 ph = some B ∧
        findInst F oid = some O ∧ ([O, U] : List Inst).Sublist B.insts := by
  have hrun : licmRun dom F L order =
      ((order.foldl (hoistStep dom L ph) (F, ([] : List Inst).map Inst.id)).1,
       (order.foldl (hoistStep dom L ph) (F, ([] : List Inst).map Inst.id)).2,
       Preserved.none) := by
    unfold licmRun
    rw [hph]
    rfl
  obtain ⟨c1, c2, c3, c4, c5⟩ := hoistFold_spec dom F L ph hnd hbids hnotph order F
    [] pre t hndo hco (by intro i hi r hr; cases hr) (List.Perm.refl _) rfl
    (fun j hj => rfl) (by simpa using hfb)
  have hmoved : (licmRun dom F L order).2.1 =
      (hoistedRecs dom F L order).map Inst.id := by
    rw [hrun]
    simpa using c1
  intro U hUall hUmoved oid hop hoidmoved
  rw [hmoved, mem_hoistedRecs] at hUmoved hoidmoved
  have hUfind : findInst F U.id = some U := (findInst_eq_some_iff hnd).mpr ⟨hUall, rfl⟩
  have hcU : (U.safeToSpec && dominatesAllLoopExits dom F L U.id) = true := by
    have h2 := hUmoved.2
    unfold hoistCond at h2
    rw [hUfind] at h2
    exact h2
  obtain ⟨O, hOF⟩ : ∃ O, findInst F oid = some O := by
    have h2 := hoidmoved.2
    unfold hoistCond at h2
    cases hOF : findInst F oid with
    | none => rw [hOF] at h2; exact absurd h2 (by simp)
    | some O => exact ⟨O, rfl⟩
  have hcO : (O.safeToSpec && dominatesAllLoopExits dom F L oid) = true := by
    have h2 := hoidmoved.2
    unfold hoistCond at h2
    rw [hOF] at h2
    exact h2
  have hfO : hoistChoice dom F L oid = some O := by
    unfold hoistChoice
    rw [hOF]
    show (if O.safeToSpec && dominatesAllLoopExits dom F L oid then some O
      else Option.none) = some O
    rw [hcO]
    rfl
  have hfU : hoistChoice dom F L U.id = some U := by
    unfold hoistChoice
    rw [hUfind]
    show (if U.safeToSpec && dominatesAllLoopExits dom F L U.id then some U
      else Option.none) = some U
    rw [hcU]
    rfl
  have hsub2 : ([oid, U.id] : List Nat).Sublist order :=
    hprec U hUall hUmoved.1 oid hop hoidmoved.1
  have hsub3 : ([O, U] : List Inst).Sublist (hoistedRecs dom F L order) := by
    have h3 := hsub2.filterMap (hoistChoice dom F L)
    rw [List.filterMap_cons_some hfO] at h3
    rw [List.filterMap_cons_some hfU] at h3
    rw [List.filterMap_nil] at h3
    exact h3
  refine ⟨⟨ph, pre ++ hoistedRecs dom F L order ++ [t]⟩, O, ?_, hOF, ?_⟩
  · rw [hrun]
    show findBlock (order.foldl (hoistStep dom L ph) (F, ([] : List Inst).map Inst.id)).1
      ph = _
    rw [c5]
    rw [List.nil_append]
  · show ([O, U] : List Inst).Sublist (pre ++ hoistedRecs dom F L order ++ [t])
    refine hsub3.trans ?_
    refine (List.sublist_append_right pre (hoistedRecs dom F L order)).trans ?_
    exact List.sublist_append_left _ _

/-- Instance of the amended C1 on exF1: iterating the invariant set in
original program order `[a, b, terminator]` places the operand `a` before
its user `b` in the preheader. -/
theorem C1_operand_precedes_user_witness :
    ∃ B O, findBlock (licmRun exDom1 exF1 exL1 [20, 21, 22]).1 1 = some B ∧
      findInst exF1 20 = some O ∧ ([O, exB] : List Inst).Sublist B.insts := by
  refine C1_operand_precedes_user_for_ordered_iteration exDom1 exF1 exL1 1
    [20, 21, 22] [] (exTerm 10) (by decide) (by decide) rfl (by decide) (by decide)
    (by decide) (by decide) ?_ exB (by decide) (by decide) 20 (by decide) (by decide)
  intro U hU hUo oid hopm hoo
  fin_cases hU <;> fin_cases hoo <;> revert hopm hUo <;> decide

/-- Closed form of the recurrence stream: on iteration `i` the value is
`start + step * i`. -/
theorem phiSeq_closed (s t : Int) : ∀ i : Nat, phiSeq s t i = s + t * i
  | 0 => by simp [phiSeq]
  | i + 1 => by
    show phiSeq s t i + t = s + t * ((i : Nat) + 1 : Nat)
    rw [phiSeq_closed s t i]
    push_cast
    ring

/-- `insertBeforeId` places the new run immediately before the first
occurrence of the anchor. -/
theorem insertBeforeId_spec (anchor : Nat) (news : List Inst) (A : Inst)
    (rest : List Inst) (hA : A.id = anchor) :
    ∀ pre : List Inst, (∀ I ∈ pre, I.id ≠ anchor) →
      insertBeforeId anchor news (pre ++ A :: rest) = pre ++ news ++ A :: rest := by
  intro pre
  induction pre with
  | nil =>
    intro _
    show insertBeforeId anchor news (A :: rest) = news ++ A :: rest
    unfold insertBeforeId
    rw [if_pos (by simp [hA])]
  | cons x xs ih =>
    intro hpre
    show insertBeforeId anchor news (x :: (xs ++ A :: rest)) = _
    unfold insertBeforeId
    rw [if_neg (by simp [hpre x (List.mem_cons_self x xs)])]
    rw [ih (fun I hI => hpre I (List.mem_cons_of_mem _ hI))]
    rfl

/-- Operand substitution away from a value that is not referenced is the
identity. -/
theorem rauwInst_fresh (old : Nat) (newv : Value) (I : Inst)
    (h : Value.inst old ∉ I.operands) : rauwInst old newv I = I := by
  unfold rauwInst
  have h2 : ∀ (ops : List Value), (∀ v ∈ ops, Value.inst old ≠ v) →
      ops.map (fun v => if v == Value.inst old then newv else v) = ops := by
    intro ops
    induction ops with
    | nil => intro _; rfl
    | cons v vs ih =>
      intro hv
      rw [List.map_cons,
        if_neg (by simp only [beq_iff_eq]
                   exact fun he => hv v (List.mem_cons_self v vs) he.symm),
        ih (fun w hw => hv w (List.mem_cons_of_mem _ hw))]
  rw [h2 I.operands (fun v hv he => h (by rw [he]; exact hv))]

/-- After `replaceAllUsesWith`, the old value has no remaining uses
anywhere in the function. -/
theorem rauwF_no_uses (F : Func) (old : Nat) (newv : Value)
    (hne : newv ≠ Value.inst old) : noRefs (rauwF F old newv) old := by
  intro B hB I hI hop
  unfold rauwF at hB
  rw [List.mem_map] at hB
  obtain ⟨B0, hB0, rfl⟩ := hB
  have hI2 : I ∈ B0.insts.map (rauwInst old newv) := hI
  rw [List.mem_map] at hI2
  obtain ⟨I0, hI0, rfl⟩ := hI2
  have hop2 : Value.inst old ∈ I0.operands.map
      (fun v => if v == Value.inst old then newv else v) := hop
  rw [List.mem_map] at hop2
  obtain ⟨v, hv, hveq⟩ := hop2
  by_cases hc : v = Value.inst old
  · rw [if_pos (by simp [hc])] at hveq
    exact hne hveq
  · rw [if_neg (by simp [hc])] at hveq
    exact hc hveq

/-- Inserting before an anchor inside one block commutes with block
lookup. -/
theorem findBlock_insertInBlock (F : Func) (bid anchor : Nat) (news : List Inst)
    (B : Block) (hfb : findBlock F bid = some B) :
    findBlock (insertInBlock F bid anchor news) bid =
      some ⟨B.id, insertBeforeId anchor news B.insts⟩ := by
  have hid : ∀ C : Block, ((fun C : Block =>
      if C.id == bid then (⟨C.id, insertBeforeId anchor news C.insts⟩ : Block)
      else C) C).id = C.id := by
    intro C
    show (if (C.id == bid) = true
        then (⟨C.id, insertBeforeId anchor news C.insts⟩ : Block) else C).id = C.id
    by_cases h : (C.id == bid) = true
    · rw [if_pos h]
    · rw [if_neg h]
  unfold insertInBlock
  rw [findBlock_mapBlocks F bid _ hid, hfb]
  have hfb2 : F.blocks.find? (fun C => C.id == bid) = some B := hfb
  have hBid : (B.id == bid) = true := by
    have h := List.find?_some hfb2
    exact h
  show some (if (B.id == bid) = true
      then (⟨B.id, insertBeforeId anchor news B.insts⟩ : Block) else B) = _
  rw [if_pos hBid]

/-- `replaceAllUsesWith` commutes with block lookup. -/
theorem findBlock_rauwF (F : Func) (old : Nat) (newv : Value) (bid : Nat)
    (B : Block) (hfb : findBlock F bid = some B) :
    findBlock (rauwF F old newv) bid =
      some ⟨B.id, B.insts.map (rauwInst old newv)⟩ := by
  unfold rauwF
  rw [findBlock_mapBlocks F bid
    (fun B => ⟨B.id, B.insts.map (rauwInst old newv)⟩) (fun C => rfl), hfb]
  rfl


/-- C7: for a header merge-point `PN` carrying the affine recurrence
`\x7bstart,+,step\x7d` of this loop (constant start and step, as in the
spec's `j_0 = 10, j_next = j + 5` example), with a canonical counter
`bIV` and the expander checks passing, `processPhi` performs the rewrite
of lines 135-143: it synthesizes `mul = bIV * step` and then
`add = start + mul` immediately before the header's first non-merge-point
instruction `A`, redirects every use of `PN` to the synthesized add
(leaving zero references to `PN`), and the synthesized pair computes
exactly the recurrence's value stream - on every iteration `i`, where the
canonical counter holds `i`, the multiply evaluates to `step * i` and the
add to `phiSeq start step i = start + step * i`. -/
theorem C7_rewritten_phi_value_stream
    (SE : SEOracle) (lid bIV : Nat) (phId : Option Nat)
    (hdrId anchor : Nat) (PN : Inst) (start step : Int)
    (st : RState) (dead : List Nat) (flag : Bool)
    (pre rest : List Inst) (A : Inst)
    (hint : PN.isIntTy = true)
    (hscev : SE.scevOf PN.id =
      SCEVExpr.addRec lid (SCEVExpr.scConst start) (SCEVExpr.scConst step) true)
    (hsafe : SE.safeToExpand (SE.scevOf PN.id) = true)
    (hnoteq : SE.scevOf PN.id ≠ SE.scevOf bIV)
    (hfb : findBlock st.F hdrId = some ⟨hdrId, pre ++ A :: rest⟩)
    (hA : A.id = anchor)
    (hpre : ∀ I ∈ pre, I.id ≠ anchor)
    (hb1 : bIV ≠ PN.id) (hfr1 : st.fresh ≠ PN.id) (hfr2 : st.fresh + 1 ≠ PN.id) :
    processPhi SE lid (some bIV) phId hdrId anchor (st, dead, flag) PN =
      applyRewrite hdrId anchor bIV PN (Value.const start) (Value.const step)
        st dead ∧
    (applyRewrite hdrId anchor bIV PN (Value.const start) (Value.const step)
        st dead).2.2 = true ∧
    (applyRewrite hdrId anchor bIV PN (Value.const start) (Value.const step)
        st dead).2.1 = dead ++ [PN.id] ∧
    findBlock (applyRewrite hdrId anchor bIV PN (Value.const start)
        (Value.const step) st dead).1.F hdrId = some ⟨hdrId,
      pre.map (rauwInst PN.id (Value.inst (st.fresh + 1))) ++
      mkStepMul st.fresh PN.isIntTy bIV (Value.const step) ::
      mkExpanded (st.fresh + 1) PN.isIntTy (Value.const start) st.fresh ::
      rauwInst PN.id (Value.inst (st.fresh + 1)) A ::
      rest.map (rauwInst PN.id (Value.inst (st.fresh + 1)))⟩ ∧
    noRefs (applyRewrite hdrId anchor bIV PN (Value.const start)
        (Value.const step) st dead).1.F PN.id ∧
    (∀ (i : Nat) (env : Nat → Int), env bIV = (i : Int) →
      evalInst env (mkStepMul st.fresh PN.isIntTy bIV (Value.const step)) =
        some (step * i) ∧
      evalInst (fun n => if n = st.fresh then step * (i : Int) else env n)
        (mkExpanded (st.fresh + 1) PN.isIntTy (Value.const start) st.fresh) =
        some (phiSeq start step i)) := by
  refine ⟨?_, rfl, rfl, ?_, ?_, ?_⟩
  · have hsafe2 : SE.safeToExpand (SCEVExpr.addRec lid (SCEVExpr.scConst start)
        (SCEVExpr.scConst step) true) = true := by rw [← hscev]; exact hsafe
    have hbe : (SCEVExpr.addRec lid (SCEVExpr.scConst start) (SCEVExpr.scConst step)
        true == SE.scevOf bIV) = false := by
      rw [← hscev]
      exact beq_eq_false_iff_ne.mpr hnoteq
    simp only [processPhi, hint, hscev, Bool.not_true, hsafe2, hbe, Bool.or_false,
      Bool.false_or, beq_self_eq_true, Bool.and_true, Bool.and_self, if_true,
      Bool.not_false, if_false, Bool.false_eq_true]
  · have h1 : findBlock (insertInBlock st.F hdrId anchor
        [mkStepMul st.fresh PN.isIntTy bIV (Value.const step),
         mkExpanded (st.fresh + 1) PN.isIntTy (Value.const start) st.fresh]) hdrId =
        some ⟨hdrId, pre ++
          [mkStepMul st.fresh PN.isIntTy bIV (Value.const step),
           mkExpanded (st.fresh + 1) PN.isIntTy (Value.const start) st.fresh] ++
          A :: rest⟩ := by
      rw [findBlock_insertInBlock st.F hdrId anchor _ _ hfb]
      congr 1
      exact congrArg (Block.mk hdrId) (insertBeforeId_spec anchor _ A rest hA pre hpre)
    have h2 := findBlock_rauwF (insertInBlock st.F hdrId anchor
        [mkStepMul st.fresh PN.isIntTy bIV (Value.const step),
         mkExpanded (st.fresh + 1) PN.isIntTy (Value.const start) st.fresh])
      PN.id (Value.inst (st.fresh + 1)) hdrId _ h1
    show findBlock (rauwF (insertInBlock st.F hdrId anchor
        [mkStepMul st.fresh PN.isIntTy bIV (Value.const step),
         mkExpanded (st.fresh + 1) PN.isIntTy (Value.const start) st.fresh])
      PN.id (Value.inst (st.fresh + 1))) hdrId = _
    rw [h2]
    have hmul : rauwInst PN.id (Value.inst (st.fresh + 1))
        (mkStepMul st.fresh PN.isIntTy bIV (Value.const step)) =
        mkStepMul st.fresh PN.isIntTy bIV (Value.const step) := by
      refine rauwInst_fresh _ _ _ ?_
      intro hmem
      have : Value.inst PN.id = Value.inst bIV ∨
          Value.inst PN.id = Value.const step := by
        simpa [mkStepMul] using hmem
      rcases this with h | h
      · exact hb1 (Value.inst.injEq _ _ ▸ h).symm
      · exact Value.noConfusion h
    have hadd : rauwInst PN.id (Value.inst (st.fresh + 1))
        (mkExpanded (st.fresh + 1) PN.isIntTy (Value.const start) st.fresh) =
        mkExpanded (st.fresh + 1) PN.isIntTy (Value.const start) st.fresh := by
      refine rauwInst_fresh _ _ _ ?_
      intro hmem
      have : Value.inst PN.id = Value.const start ∨
          Value.inst PN.id = Value.inst st.fresh := by
        simpa [mkExpanded] using hmem
      rcases this with h | h
      · exact Value.noConfusion h
      · exact hfr1 (Value.inst.injEq _ _ ▸ h).symm
    congr 1
    refine congrArg (Block.mk hdrId) ?_
    rw [List.map_append, List.map_append, List.map_cons, List.map_cons,
      List.map_cons, List.map_nil, hmul, hadd]
    simp [List.append_assoc]
  · show noRefs (rauwF (insertInBlock st.F hdrId anchor _) PN.id
      (Value.inst (st.fresh + 1))) PN.id
    refine rauwF_no_uses _ _ _ ?_
    intro h
    exact hfr2 (Value.inst.injEq _ _ ▸ h)
  · intro i env henv
    constructor
    · show some (evalValue env (Value.inst bIV) * evalValue env (Value.const step)) =
        some (step * (i : Int))
      rw [show evalValue env (Value.inst bIV) = env bIV from rfl, henv]
      show some ((i : Int) * step) = some (step * (i : Int))
      rw [Int.mul_comm]
    · show some (evalValue (fun n => if n = st.fresh then step * (i : Int) else env n)
          (Value.const start) +
        evalValue (fun n => if n = st.fresh then step * (i : Int) else env n)
          (Value.inst st.fresh)) = some (phiSeq start step i)
      rw [phiSeq_closed]
      show some (start + (if st.fresh = st.fresh then step * (i : Int)
        else env st.fresh)) = _
      rw [if_pos rfl]

/-- Instance of C7 on the concrete nest: `j = \x7b10,+,5\x7d` in the
inner loop of exF2-like block 2, rewritten against canonical counter
`i = 20`; on iteration 3 the synthesized multiply evaluates to `15` and
the synthesized add to `phiSeq 10 5 3 = 25`. -/
theorem C7_rewritten_phi_value_stream_witness :
    (exJ.isIntTy = true ∧
     exSE2.scevOf exJ.id =
       SCEVExpr.addRec 200 (SCEVExpr.scConst 10) (SCEVExpr.scConst 5) true ∧
     exSE2.safeToExpand (exSE2.scevOf exJ.id) = true ∧
     exSE2.scevOf exJ.id ≠ exSE2.scevOf 20 ∧
     findBlock exF3 2 = some ⟨2, [exIIn, exJ] ++ exUse :: [exTerm 22]⟩ ∧
     exUse.id = 23 ∧
     (∀ I ∈ ([exIIn, exJ] : List Inst), I.id ≠ 23) ∧
     (20 : Nat) ≠ exJ.id ∧ (100 : Nat) ≠ exJ.id ∧ (100 + 1 : Nat) ≠ exJ.id) ∧
    (processPhi exSE2 200 (some 20) (some 1) 2 23 (⟨exF3, 100⟩, [], false) exJ =
      applyRewrite 2 23 20 exJ (Value.const 10) (Value.const 5) ⟨exF3, 100⟩ [] ∧
     (applyRewrite 2 23 20 exJ (Value.const 10) (Value.const 5)
        ⟨exF3, 100⟩ []).2.2 = true ∧
     (applyRewrite 2 23 20 exJ (Value.const 10) (Value.const 5)
        ⟨exF3, 100⟩ []).2.1 = [] ++ [exJ.id] ∧
     findBlock (applyRewrite 2 23 20 exJ (Value.const 10) (Value.const 5)
        ⟨exF3, 100⟩ []).1.F 2 = some ⟨2,
       ([exIIn, exJ] : List Inst).map (rauwInst exJ.id (Value.inst 101)) ++
       mkStepMul 100 exJ.isIntTy 20 (Value.const 5) ::
       mkExpanded 101 exJ.isIntTy (Value.const 10) 100 ::
       rauwInst exJ.id (Value.inst 101) exUse ::
       ([exTerm 22] : List Inst).map (rauwInst exJ.id (Value.inst 101))⟩ ∧
     noRefs (applyRewrite 2 23 20 exJ (Value.const 10) (Value.const 5)
        ⟨exF3, 100⟩ []).1.F exJ.id ∧
     (∀ (i : Nat) (env : Nat → Int), env 20 = (i : Int) →
       evalInst env (mkStepMul 100 exJ.isIntTy 20 (Value.const 5)) =
         some (5 * i) ∧
       evalInst (fun n => if n = 100 then 5 * (i : Int) else env n)
         (mkExpanded 101 exJ.isIntTy (Value.const 10) 100) =
         some (phiSeq 10 5 i))) :=
  ⟨by decide,
   C7_rewritten_phi_value_stream exSE2 200 20 (some 1) 2 23 exJ 10 5
     ⟨exF3, 100⟩ [] false [exIIn, exJ] [exTerm 22] exUse
     (by decide) (by decide) (by decide) (by decide) (by decide) (by decide)
     (by decide) (by decide) (by decide) (by decide)⟩

/-- Membership after inserting a run before the anchor. -/
theorem mem_insertBeforeId (anchor : Nat) (news : List Inst) :
    ∀ (l : List Inst) (x : Inst), x ∈ insertBeforeId anchor news l →
      x ∈ news ∨ x ∈ l := by
  intro l
  induction l with
  | nil => intro x h; exact absurd h (by simp [insertBeforeId])
  | cons y ys ih =>
    intro x h
    unfold insertBeforeId at h
    by_cases hc : (y.id == anchor) = true
    · rw [if_pos hc] at h
      rcases List.mem_append.mp h with h1 | h1
      · exact Or.inl h1
      · exact Or.inr h1
    · rw [if_neg hc] at h
      rcases List.mem_cons.mp h with h1 | h1
      · exact Or.inr (by rw [h1]; exact List.mem_cons_self y ys)
      · rcases ih x h1 with h2 | h2
        · exact Or.inl h2
        · exact Or.inr (List.mem_cons_of_mem _ h2)

/-- Membership after folding a run of insertions before the terminator. -/
theorem mem_foldl_insertBeforeLast :
    ∀ (news l : List Inst) (x : Inst),
      x ∈ news.foldl (fun acc I => insertBeforeLast I acc) l →
      x ∈ news ∨ x ∈ l := by
  intro news
  induction news with
  | nil => intro l x h; exact Or.inr h
  | cons n ns ih =>
    intro l x h
    rcases ih (insertBeforeLast n l) x h with h1 | h1
    · exact Or.inl (List.mem_cons_of_mem _ h1)
    · rcases (mem_insertBeforeLast n x l).mp h1 with h2 | h2
      · exact Or.inl (by rw [h2]; exact List.mem_cons_self n ns)
      · exact Or.inr h2

/-- Inserting instructions that do not reference `d` preserves the
absence of references to `d`. -/
theorem noRefs_insertInBlock (F : Func) (bid anchor : Nat) (news : List Inst)
    (d : Nat) (hF : noRefs F d)
    (hnews : ∀ I ∈ news, Value.inst d ∉ I.operands) :
    noRefs (insertInBlock F bid anchor news) d := by
  intro B hB I hI
  unfold insertInBlock at hB
  rw [List.mem_map] at hB
  obtain ⟨B0, hB0, rfl⟩ := hB
  by_cases hc : (B0.id == bid) = true
  · rw [if_pos hc] at hI
    rcases mem_insertBeforeId anchor news B0.insts I hI with h1 | h1
    · exact hnews I h1
    · exact hF B0 hB0 I h1
  · rw [if_neg hc] at hI
    exact hF B0 hB0 I hI

/-- Materializing expander output that does not reference `d` preserves
the absence of references to `d`. -/
theorem noRefs_insertRunBeforeTerm (F : Func) (bid : Nat) (news : List Inst)
    (d : Nat) (hF : noRefs F d)
    (hnews : ∀ I ∈ news, Value.inst d ∉ I.operands) :
    noRefs (insertRunBeforeTerm F bid news) d := by
  intro B hB I hI
  unfold insertRunBeforeTerm at hB
  rw [List.mem_map] at hB
  obtain ⟨B0, hB0, rfl⟩ := hB
  by_cases hc : (B0.id == bid) = true
  · rw [if_pos hc] at hI
    rcases mem_foldl_insertBeforeLast news B0.insts I hI with h1 | h1
    · exact hnews I h1
    · exact hF B0 hB0 I h1
  · rw [if_neg hc] at hI
    exact hF B0 hB0 I hI

/-- Redirecting uses of another value to a replacement that is not `d`
preserves the absence of references to `d`. -/
theorem noRefs_rauwF (F : Func) (old : Nat) (newv : Value) (d : Nat)
    (hF : noRefs F d) (hnew : newv ≠ Value.inst d) :
    noRefs (rauwF F old newv) d := by
  intro B hB I hI hop
  unfold rauwF at hB
  rw [List.mem_map] at hB
  obtain ⟨B0, hB0, rfl⟩ := hB
  have hI2 : I ∈ B0.insts.map (rauwInst old newv) := hI
  rw [List.mem_map] at hI2
  obtain ⟨I0, hI0, rfl⟩ := hI2
  have hop2 : Value.inst d ∈ I0.operands.map
      (fun v => if v == Value.inst old then newv else v) := hop
  rw [List.mem_map] at hop2
  obtain ⟨v, hv, hveq⟩ := hop2
  by_cases hc : (v == Value.inst old) = true
  · rw [if_pos hc] at hveq
    exact hnew hveq
  · rw [if_neg hc] at hveq
    exact hF B0 hB0 I0 hI0 (by rw [← hveq]; exact hv)

/-- Erasing an instruction preserves the absence of references. -/
theorem noRefs_erase (F : Func) (j d : Nat) (hF : noRefs F d) :
    noRefs (eraseInstEverywhere F j) d := by
  intro B hB I hI
  unfold eraseInstEverywhere at hB
  rw [List.mem_map] at hB
  obtain ⟨B0, hB0, rfl⟩ := hB
  have hI2 : I ∈ B0.insts.filter (fun I => !(I.id == j)) := hI
  exact hF B0 hB0 I (List.mem_of_mem_filter hI2)

/-- The batched deletion preserves the absence of references. -/
theorem noRefs_eraseFold (d : Nat) :
    ∀ (l : List Nat) (F : Func), noRefs F d →
      noRefs (l.foldl eraseInstEverywhere F) d := by
  intro l
  induction l with
  | nil => intro F h; exact h
  | cons j js ih =>
    intro F h
    exact ih (eraseInstEverywhere F j) (noRefs_erase F j d h)

/-- Erasing `d` removes every instruction with id `d`. -/
theorem absentFrom_erase_self (F : Func) (d : Nat) :
    absentFrom (eraseInstEverywhere F d) d := by
  intro B hB I hI
  unfold eraseInstEverywhere at hB
  rw [List.mem_map] at hB
  obtain ⟨B0, hB0, rfl⟩ := hB
  have hI2 : I ∈ B0.insts.filter (fun I => !(I.id == d)) := hI
  have h2 := List.of_mem_filter hI2
  simpa using h2

/-- Erasing another id preserves the absence of `d`. -/
theorem absentFrom_erase (F : Func) (j d : Nat) (hF : absentFrom F d) :
    absentFrom (eraseInstEverywhere F j) d := by
  intro B hB I hI
  unfold eraseInstEverywhere at hB
  rw [List.mem_map] at hB
  obtain ⟨B0, hB0, rfl⟩ := hB
  have hI2 : I ∈ B0.insts.filter (fun I => !(I.id == j)) := hI
  exact hF B0 hB0 I (List.mem_of_mem_filter hI2)

/-- The batched deletion preserves absence. -/
theorem absentFrom_eraseFold_pres (d : Nat) :
    ∀ (l : List Nat) (F : Func), absentFrom F d →
      absentFrom (l.foldl eraseInstEverywhere F) d := by
  intro l
  induction l with
  | nil => intro F h; exact h
  | cons j js ih =>
    intro F h
    exact ih (eraseInstEverywhere F j) (absentFrom_erase F j d h)

/-- After the batched deletion, every deleted id is absent from the
graph. -/
theorem absentFrom_eraseFold (d : Nat) :
    ∀ (l : List Nat) (F : Func), d ∈ l →
      absentFrom (l.foldl eraseInstEverywhere F) d := by
  intro l
  induction l with
  | nil => intro F h; exact absurd h (List.not_mem_nil d)
  | cons j js ih =>
    intro F h
    rcases List.mem_cons.mp h with h1 | h1
    · rw [h1]
      exact absentFrom_eraseFold_pres j js _ (absentFrom_erase_self F j)
    · exact ih (eraseInstEverywhere F j) h1

/-- The rewrite of lines 135-143 preserves the scan invariant: the new
multiply and add reference only the canonical counter, the resolved
start and step values, and each other; every use of the rewritten PHI is
redirected to the fresh add, which is none of the banned ids. -/
theorem deadOK_applyRewrite (banned : List Nat) (bIV hdrId anchor : Nat)
    (PN : Inst) (sv tv : Value) (st : RState) (dead : List Nat)
    (hfreshb : ∀ p ∈ banned, p < st.fresh)
    (hPN : PN.id ∈ banned) (hPNb : PN.id ≠ bIV)
    (hdead : ∀ d ∈ dead, d ∈ banned ∧
      (∀ b, (some bIV : Option Nat) = some b → d ≠ b) ∧ noRefs st.F d)
    (hsv : ∀ d ∈ banned, sv ≠ Value.inst d)
    (htv : ∀ d ∈ banned, tv ≠ Value.inst d) :
    deadOK banned (some bIV) (applyRewrite hdrId anchor bIV PN sv tv st dead) := by
  constructor
  · intro p hp
    show p < st.fresh + 2
    exact Nat.lt_of_lt_of_le (hfreshb p hp) (Nat.le_add_right _ _)
  · intro d hd
    have hd2 : d ∈ dead ++ [PN.id] := hd
    rcases List.mem_append.mp hd2 with hdo | hdn
    · obtain ⟨hb, hbv, hnr⟩ := hdead d hdo
      refine ⟨hb, hbv, ?_⟩
      show noRefs (rauwF (insertInBlock st.F hdrId anchor
        [mkStepMul st.fresh PN.isIntTy bIV tv,
         mkExpanded (st.fresh + 1) PN.isIntTy sv st.fresh]) PN.id
        (Value.inst (st.fresh + 1))) d
      refine noRefs_rauwF _ _ _ _ ?_ ?_
      · refine noRefs_insertInBlock _ _ _ _ _ hnr ?_
        intro I hI hop
        rcases List.mem_cons.mp hI with heqI | hI2
        · subst heqI
          have hop2 : Value.inst d ∈ [Value.inst bIV, tv] := hop
          rcases List.mem_cons.mp hop2 with h1 | h1
          · exact hbv bIV rfl (Value.inst.injEq _ _ ▸ h1)
          · have h2 : Value.inst d = tv := List.mem_singleton.mp h1
            exact htv d hb h2.symm
        · have heqI : I = mkExpanded (st.fresh + 1) PN.isIntTy sv st.fresh :=
            List.mem_singleton.mp hI2
          subst heqI
          have hop2 : Value.inst d ∈ [sv, Value.inst st.fresh] := hop
          rcases List.mem_cons.mp hop2 with h1 | h1
          · exact hsv d hb h1.symm
          · have h2 : Value.inst d = Value.inst st.fresh := List.mem_singleton.mp h1
            have h3 : d = st.fresh := Value.inst.injEq _ _ ▸ h2
            exact absurd (h3 ▸ hfreshb d hb) (Nat.lt_irrefl _)
      · intro he
        have h3 : st.fresh + 1 = d := Value.inst.injEq _ _ ▸ he
        have hlt := hfreshb d hb
        omega
    · have hdn2 : d = PN.id := by simpa using hdn
      subst hdn2
      refine ⟨hPN, fun b hb => (Option.some.inj hb) ▸ hPNb, ?_⟩
      show noRefs (rauwF (insertInBlock st.F hdrId anchor
        [mkStepMul st.fresh PN.isIntTy bIV tv,
         mkExpanded (st.fresh + 1) PN.isIntTy sv st.fresh]) PN.id
        (Value.inst (st.fresh + 1))) PN.id
      refine rauwF_no_uses _ _ _ ?_
      intro he
      have h3 : st.fresh + 1 = PN.id := Value.inst.injEq _ _ ▸ he
      have hlt := hfreshb PN.id hPN
      omega

/-- A successful expander materialization lifts the scan invariant
across the preheader insertion: the fresh counter stays above the banned
ids, the dead PHIs stay unreferenced, and the returned value references
no banned id. -/
theorem deadOK_lift_expand (SE : SEOracle) (banned : List Nat)
    (hSE : SEOracleFreshOK SE banned) (sExpr : SCEVExpr) (F : Func) (f : Nat)
    (ph : Nat) (news : List Inst) (v : Value) (f1 : Nat)
    (hexp : SE.expandAt sExpr f = some (news, v, f1))
    (hfreshb : ∀ p ∈ banned, p < f)
    (bIV : Nat) (dead : List Nat)
    (hdead : ∀ d ∈ dead, d ∈ banned ∧
      (∀ b, (some bIV : Option Nat) = some b → d ≠ b) ∧ noRefs F d) :
    (∀ p ∈ banned, p < f1) ∧
    (∀ d ∈ dead, d ∈ banned ∧
      (∀ b, (some bIV : Option Nat) = some b → d ≠ b) ∧
      noRefs (insertRunBeforeTerm F ph news) d) ∧
    (∀ d ∈ banned, v ≠ Value.inst d) := by
  obtain ⟨hmono, hinsts, hval⟩ := hSE sExpr f (news, v, f1) hexp
  have hmono2 : f ≤ f1 := hmono
  refine ⟨?_, ?_, ?_⟩
  · exact fun p hp => Nat.lt_of_lt_of_le (hfreshb p hp) hmono2
  · intro d hd
    obtain ⟨hb, hbv, hnr⟩ := hdead d hd
    refine ⟨hb, hbv, ?_⟩
    refine noRefs_insertRunBeforeTerm F ph news d hnr ?_
    intro I hI hop
    exact (hinsts I hI).2 d hop hb
  · intro d hb he
    exact hval d he hb

/-- Processing one header PHI preserves the scan invariant, through every
branch of the guard cascade of lines 72-148. -/
theorem deadOK_processPhi (SE : SEOracle) (lid : Nat) (canIV : Option Nat)
    (phId : Option Nat) (hdrId anchor : Nat) (banned : List Nat)
    (hSE : SEOracleFreshOK SE banned)
    (acc : ScanAcc) (PN : Inst) (hPN : PN.id ∈ banned)
    (h : deadOK banned canIV acc) :
    deadOK banned canIV (processPhi SE lid canIV phId hdrId anchor acc PN) := by
  obtain ⟨st, dead, flag⟩ := acc
  cases hI : PN.isIntTy with
  | false =>
    rw [show processPhi SE lid canIV phId hdrId anchor (st, dead, flag) PN =
      (st, dead, flag) from by simp [processPhi, hI]]
    exact h
  | true =>
    rcases hS : SE.scevOf PN.id with v | ⟨arLoop, start, step, affine⟩ | u
    · rw [show processPhi SE lid canIV phId hdrId anchor (st, dead, flag) PN =
        (st, dead, flag) from by simp [processPhi, hI, hS]]
      exact h
    · cases hA : (arLoop == lid && affine) with
      | false =>
        rw [show processPhi SE lid canIV phId hdrId anchor (st, dead, flag) PN =
          (st, dead, flag) from by simp [processPhi, hI, hS, hA]]
        exact h
      | true =>
        cases canIV with
        | none =>
          rw [show processPhi SE lid Option.none phId hdrId anchor
            (st, dead, flag) PN = (st, dead, flag) from by
              simp [processPhi, hI, hS, hA]]
          exact h
        | some bIV =>
          cases hG : (!SE.safeToExpand (SCEVExpr.addRec arLoop start step affine) ||
              (SCEVExpr.addRec arLoop start step affine == SE.scevOf bIV)) with
          | true =>
            rw [show processPhi SE lid (some bIV) phId hdrId anchor
              (st, dead, flag) PN = (st, dead, flag) from by
                simp [processPhi, hI, hS, hA, hG]]
            exact h
          | false =>
            have hne2 : ((SCEVExpr.addRec arLoop start step affine) ==
                SE.scevOf bIV) = false := by
              cases hx : ((SCEVExpr.addRec arLoop start step affine) ==
                  SE.scevOf bIV) with
              | false => rfl
              | true => rw [hx, Bool.or_true] at hG; exact absurd hG (by simp)
            have hPNb : PN.id ≠ bIV := by
              intro he
              rw [← he, hS] at hne2
              simp at hne2
            have hfreshb : ∀ p ∈ banned, p < st.fresh := h.1
            have hdead : ∀ d ∈ dead, d ∈ banned ∧
                (∀ b, (some bIV : Option Nat) = some b → d ≠ b) ∧
                noRefs st.F d := h.2
            rcases start with sv1 | ⟨a1, b1, c1, d1⟩ | u1
            · rcases step with tv1 | ⟨a2, b2, c2, d2⟩ | u2
              · rw [show processPhi SE lid (some bIV) phId hdrId anchor
                  (st, dead, flag) PN = applyRewrite hdrId anchor bIV PN
                    (Value.const sv1) (Value.const tv1) st dead from by
                    simp [processPhi, hI, hS, hA, hG]]
                exact deadOK_applyRewrite banned bIV hdrId anchor PN _ _ st dead
                  hfreshb hPN hPNb hdead
                  (fun d _ hcon => Value.noConfusion hcon)
                  (fun d _ hcon => Value.noConfusion hcon)
              · cases phId with
                | none =>
                  rw [show processPhi SE lid (some bIV) Option.none hdrId anchor
                    (st, dead, flag) PN = (st, dead, flag) from by
                      simp [processPhi, hI, hS, hA, hG]]
                  exact h
                | some ph =>
                  cases hexp : SE.expandAt (SCEVExpr.addRec a2 b2 c2 d2)
                      st.fresh with
                  | none =>
                    rw [show processPhi SE lid (some bIV) (some ph) hdrId anchor
                      (st, dead, flag) PN = (st, dead, flag) from by
                        simp [processPhi, hI, hS, hA, hG, hexp]]
                    exact h
                  | some r =>
                    rcases r with ⟨newTs, tv, f2⟩
                    obtain ⟨hf2, hdead2, htv⟩ := deadOK_lift_expand SE banned hSE
                      (SCEVExpr.addRec a2 b2 c2 d2) st.F st.fresh ph newTs tv f2
                      hexp hfreshb bIV dead hdead
                    rw [show processPhi SE lid (some bIV) (some ph) hdrId anchor
                      (st, dead, flag) PN = applyRewrite hdrId anchor bIV PN
                        (Value.const sv1) tv
                        ⟨insertRunBeforeTerm st.F ph newTs, f2⟩ dead from by
                        simp [processPhi, hI, hS, hA, hG, hexp]]
                    exact deadOK_applyRewrite banned bIV hdrId anchor PN _ _
                      ⟨insertRunBeforeTerm st.F ph newTs, f2⟩ dead hf2 hPN hPNb
                      hdead2 (fun d _ hcon => Value.noConfusion hcon) htv
              · cases phId with
                | none =>
                  rw [show processPhi SE lid (some bIV) Option.none hdrId anchor
                    (st, dead, flag) PN = (st, dead, flag) from by
                      simp [processPhi, hI, hS, hA, hG]]
                  exact h
                | some ph =>
                  cases hexp : SE.expandAt (SCEVExpr.scUnknown u2) st.fresh with
                  | none =>
                    rw [show processPhi SE lid (some bIV) (some ph) hdrId anchor
                      (st, dead, flag) PN = (st, dead, flag) from by
                        simp [processPhi, hI, hS, hA, hG, hexp]]
                    exact h
                  | some r =>
                    rcases r with ⟨newTs, tv, f2⟩
                    obtain ⟨hf2, hdead2, htv⟩ := deadOK_lift_expand SE banned hSE
                      (SCEVExpr.scUnknown u2) st.F st.fresh ph newTs tv f2
                      hexp hfreshb bIV dead hdead
                    rw [show processPhi SE lid (some bIV) (some ph) hdrId anchor
                      (st, dead, flag) PN = applyRewrite hdrId anchor bIV PN
                        (Value.const sv1) tv
                        ⟨insertRunBeforeTerm st.F ph newTs, f2⟩ dead from by
                        simp [processPhi, hI, hS, hA, hG, hexp]]
                    exact deadOK_applyRewrite banned bIV hdrId anchor PN _ _
                      ⟨insertRunBeforeTerm st.F ph newTs, f2⟩ dead hf2 hPN hPNb
                      hdead2 (fun d _ hcon => Value.noConfusion hcon) htv
            · cases phId with
              | none =>
                rw [show processPhi SE lid (some bIV) Option.none hdrId anchor
                  (st, dead, flag) PN = (st, dead, flag) from by
                    simp [processPhi, hI, hS, hA, hG]]
                exact h
              | some ph =>
                cases hexp1 : SE.expandAt (SCEVExpr.addRec a1 b1 c1 d1)
                    st.fresh with
                | none =>
                  rw [show processPhi SE lid (some bIV) (some ph) hdrId anchor
                    (st, dead, flag) PN = (st, dead, flag) from by
                      simp [processPhi, hI, hS, hA, hG, hexp1]]
                  exact h
                | some r1 =>
                  rcases r1 with ⟨newSs, sv, f1⟩
                  obtain ⟨hf1, hdead1, hsv⟩ := deadOK_lift_expand SE banned hSE
                    (SCEVExpr.addRec a1 b1 c1 d1) st.F st.fresh ph newSs sv f1
                    hexp1 hfreshb bIV dead hdead
                  rcases step with tv1 | ⟨a2, b2, c2, d2⟩ | u2
                  · rw [show processPhi SE lid (some bIV) (some ph) hdrId anchor
                      (st, dead, flag) PN = applyRewrite hdrId anchor bIV PN
                        sv (Value.const tv1)
                        ⟨insertRunBeforeTerm st.F ph newSs, f1⟩ dead from by
                        simp [processPhi, hI, hS, hA, hG, hexp1]]
                    exact deadOK_applyRewrite banned bIV hdrId anchor PN _ _
                      ⟨insertRunBeforeTerm st.F ph newSs, f1⟩ dead hf1 hPN hPNb
                      hdead1 hsv (fun d _ hcon => Value.noConfusion hcon)
                  · cases hexp2 : SE.expandAt (SCEVExpr.addRec a2 b2 c2 d2)
                        f1 with
                    | none =>
                      rw [show processPhi SE lid (some bIV) (some ph) hdrId anchor
                        (st, dead, flag) PN =
                        (⟨insertRunBeforeTerm st.F ph newSs, f1⟩, dead, flag)
                        from by simp [processPhi, hI, hS, hA, hG, hexp1, hexp2]]
                      exact ⟨hf1, hdead1⟩
                    | some r2 =>
                      rcases r2 with ⟨newTs, tv, f2⟩
                      obtain ⟨hf2, hdead2, htv⟩ := deadOK_lift_expand SE banned
                        hSE (SCEVExpr.addRec a2 b2 c2 d2)
                        (insertRunBeforeTerm st.F ph newSs) f1 ph newTs tv f2
                        hexp2 hf1 bIV dead hdead1
                      rw [show processPhi SE lid (some bIV) (some ph) hdrId
                        anchor (st, dead, flag) PN = applyRewrite hdrId anchor
                          bIV PN sv tv
                          ⟨insertRunBeforeTerm
                            (insertRunBeforeTerm st.F ph newSs) ph newTs, f2⟩
                          dead from by
                          simp [processPhi, hI, hS, hA, hG, hexp1, hexp2]]
                      exact deadOK_applyRewrite banned bIV hdrId anchor PN _ _
                        ⟨insertRunBeforeTerm
                          (insertRunBeforeTerm st.F ph newSs) ph newTs, f2⟩
                        dead hf2 hPN hPNb hdead2 hsv htv
                  · cases hexp2 : SE.expandAt (SCEVExpr.scUnknown u2) f1 with
                    | none =>
                      rw [show processPhi SE lid (some bIV) (some ph) hdrId anchor
                        (st, dead, flag) PN =
                        (⟨insertRunBeforeTerm st.F ph newSs, f1⟩, dead, flag)
                        from by simp [processPhi, hI, hS, hA, hG, hexp1, hexp2]]
                      exact ⟨hf1, hdead1⟩
                    | some r2 =>
                      rcases r2 with ⟨newTs, tv, f2⟩
                      obtain ⟨hf2, hdead2, htv⟩ := deadOK_lift_expand SE banned
                        hSE (SCEVExpr.scUnknown u2)
                        (insertRunBeforeTerm st.F ph newSs) f1 ph newTs tv f2
                        hexp2 hf1 bIV dead hdead1
                      rw [show processPhi SE lid (some bIV) (some ph) hdrId
                        anchor (st, dead, flag) PN = applyRewrite hdrId anchor
                          bIV PN sv tv
                          ⟨insertRunBeforeTerm
                            (insertRunBeforeTerm st.F ph newSs) ph newTs, f2⟩
                          dead from by
                          simp [processPhi, hI, hS, hA, hG, hexp1, hexp2]]
                      exact deadOK_applyRewrite banned bIV hdrId anchor PN _ _
                        ⟨insertRunBeforeTerm
                          (insertRunBeforeTerm st.F ph newSs) ph newTs, f2⟩
                        dead hf2 hPN hPNb hdead2 hsv htv
            · cases phId with
              | none =>
                rw [show processPhi SE lid (some bIV) Option.none hdrId anchor
                  (st, dead, flag) PN = (st, dead, flag) from by
                    simp [processPhi, hI, hS, hA, hG]]
                exact h
              | some ph =>
                cases hexp1 : SE.expandAt (SCEVExpr.scUnknown u1) st.fresh with
                | none =>
                  rw [show processPhi SE lid (some bIV) (some ph) hdrId anchor
                    (st, dead, flag) PN = (st, dead, flag) from by
                      simp [processPhi, hI, hS, hA, hG, hexp1]]
                  exact h
                | some r1 =>
                  rcases r1 with ⟨newSs, sv, f1⟩
                  obtain ⟨hf1, hdead1, hsv⟩ := deadOK_lift_expand SE banned hSE
                    (SCEVExpr.scUnknown u1) st.F st.fresh ph newSs sv f1
                    hexp1 hfreshb bIV dead hdead
                  rcases step with tv1 | ⟨a2, b2, c2, d2⟩ | u2
                  · rw [show processPhi SE lid (some bIV) (some ph) hdrId anchor
                      (st, dead, flag) PN = applyRewrite hdrId anchor bIV PN
                        sv (Value.const tv1)
                        ⟨insertRunBeforeTerm st.F ph newSs, f1⟩ dead from by
                        simp [processPhi, hI, hS, hA, hG, hexp1]]
                    exact deadOK_applyRewrite banned bIV hdrId anchor PN _ _
                      ⟨insertRunBeforeTerm st.F ph newSs, f1⟩ dead hf1 hPN hPNb
                      hdead1 hsv (fun d _ hcon => Value.noConfusion hcon)
                  · cases hexp2 : SE.expandAt (SCEVExpr.addRec a2 b2 c2 d2)
                        f1 with
                    | none =>
                      rw [show processPhi SE lid (some bIV) (some ph) hdrId anchor
                        (st, dead, flag) PN =
                        (⟨insertRunBeforeTerm st.F ph newSs, f1⟩, dead, flag)
                        from by simp [processPhi, hI, hS, hA, hG, hexp1, hexp2]]
                      exact ⟨hf1, hdead1⟩
                    | some r2 =>
                      rcases r2 with ⟨newTs, tv, f2⟩
                      obtain ⟨hf2, hdead2, htv⟩ := deadOK_lift_expand SE banned
                        hSE (SCEVExpr.addRec a2 b2 c2 d2)
                        (insertRunBeforeTerm st.F ph newSs) f1 ph newTs tv f2
                        hexp2 hf1 bIV dead hdead1
                      rw [show processPhi SE lid (some bIV) (some ph) hdrId
                        anchor (st, dead, flag) PN = applyRewrite hdrId anchor
                          bIV PN sv tv
                          ⟨insertRunBeforeTerm
                            (insertRunBeforeTerm st.F ph newSs) ph newTs, f2⟩
                          dead from by
                          simp [processPhi, hI, hS, hA, hG, hexp1, hexp2]]
                      exact deadOK_applyRewrite banned bIV hdrId anchor PN _ _
                        ⟨insertRunBeforeTerm
                          (insertRunBeforeTerm st.F ph newSs) ph newTs, f2⟩
                        dead hf2 hPN hPNb hdead2 hsv htv
                  · cases hexp2 : SE.expandAt (SCEVExpr.scUnknown u2) f1 with
                    | none =>
                      rw [show processPhi SE lid (some bIV) (some ph) hdrId anchor
                        (st, dead, flag) PN =
                        (⟨insertRunBeforeTerm st.F ph newSs, f1⟩, dead, flag)
                        from by simp [processPhi, hI, hS, hA, hG, hexp1, hexp2]]
                      exact ⟨hf1, hdead1⟩
                    | some r2 =>
                      rcases r2 with ⟨newTs, tv, f2⟩
                      obtain ⟨hf2, hdead2, htv⟩ := deadOK_lift_expand SE banned
                        hSE (SCEVExpr.scUnknown u2)
                        (insertRunBeforeTerm st.F ph newSs) f1 ph newTs tv f2
                        hexp2 hf1 bIV dead hdead1
                      rw [show processPhi SE lid (some bIV) (some ph) hdrId
                        anchor (st, dead, flag) PN = applyRewrite hdrId anchor
                          bIV PN sv tv
                          ⟨insertRunBeforeTerm
                            (insertRunBeforeTerm st.F ph newSs) ph newTs, f2⟩
                          dead from by
                          simp [processPhi, hI, hS, hA, hG, hexp1, hexp2]]
                      exact deadOK_applyRewrite banned bIV hdrId anchor PN _ _
                        ⟨insertRunBeforeTerm
                          (insertRunBeforeTerm st.F ph newSs) ph newTs, f2⟩
                        dead hf2 hPN hPNb hdead2 hsv htv
    · rw [show processPhi SE lid canIV phId hdrId anchor (st, dead, flag) PN =
        (st, dead, flag) from by simp [processPhi, hI, hS]]
      exact h

/-- The whole header scan preserves the invariant. -/
theorem deadOK_scanFold (SE : SEOracle) (lid : Nat) (canIV phId : Option Nat)
    (hdrId anchor : Nat) (banned : List Nat) (hSE : SEOracleFreshOK SE banned) :
    ∀ (phis : List Inst) (acc : ScanAcc), (∀ PN ∈ phis, PN.id ∈ banned) →
      deadOK banned canIV acc →
      deadOK banned canIV
        (phis.foldl (processPhi SE lid canIV phId hdrId anchor) acc) := by
  intro phis
  induction phis with
  | nil => intro acc _ h; exact h
  | cons PN ps ih =>
    intro acc hb h
    exact ih (processPhi SE lid canIV phId hdrId anchor acc PN)
      (fun Q hQ => hb Q (List.mem_cons_of_mem _ hQ))
      (deadOK_processPhi SE lid canIV phId hdrId anchor banned hSE acc PN
        (hb PN (List.mem_cons_self PN ps)) h)

/-- C8: provided the expander oracle is well behaved over the header's
PHI ids (`banned`) and those ids lie below the fresh counter, the scan of
lines 72-150 leaves every PHI it records dead with zero remaining uses
already BEFORE the batched deletion (uses are redirected at rewrite
time), and after the batched deletion of lines 152-154 each rewritten
merge-point both has zero remaining uses and is absent from the graph. -/
theorem C8_dead_merge_points_unreferenced_and_deleted
    (SE : SEOracle) (lid : Nat) (canIV phId : Option Nat)
    (hdrId anchor : Nat) (phis : List Inst) (st : RState) (banned : List Nat)
    (hban : ∀ PN ∈ phis, PN.id ∈ banned)
    (hfresh : ∀ p ∈ banned, p < st.fresh)
    (hSE : SEOracleFreshOK SE banned) :
    (∀ d ∈ (phis.foldl (processPhi SE lid canIV phId hdrId anchor)
        (st, ([] : List Nat), false)).2.1,
      noRefs (phis.foldl (processPhi SE lid canIV phId hdrId anchor)
        (st, ([] : List Nat), false)).1.F d) ∧
    (∀ d ∈ (rewriteHeaderPhis SE lid canIV phId hdrId anchor phis st).2.1,
      noRefs (rewriteHeaderPhis SE lid canIV phId hdrId anchor phis st).1.F d ∧
      absentFrom
        (rewriteHeaderPhis SE lid canIV phId hdrId anchor phis st).1.F d) := by
  have h0 : deadOK banned canIV (st, ([] : List Nat), false) :=
    ⟨hfresh, fun d hd => absurd hd (List.not_mem_nil d)⟩
  have hF := deadOK_scanFold SE lid canIV phId hdrId anchor banned hSE phis
    (st, ([] : List Nat), false) hban h0
  constructor
  · intro d hd
    exact (hF.2 d hd).2.2
  · intro d hd
    have hd2 : d ∈ (phis.foldl (processPhi SE lid canIV phId hdrId anchor)
        (st, ([] : List Nat), false)).2.1 := hd
    have hnr := (hF.2 d hd2).2.2
    constructor
    · show noRefs ((phis.foldl (processPhi SE lid canIV phId hdrId anchor)
        (st, ([] : List Nat), false)).2.1.foldl eraseInstEverywhere
        (phis.foldl (processPhi SE lid canIV phId hdrId anchor)
          (st, ([] : List Nat), false)).1.F) d
      exact noRefs_eraseFold d _ _ hnr
    · show absentFrom ((phis.foldl (processPhi SE lid canIV phId hdrId anchor)
        (st, ([] : List Nat), false)).2.1.foldl eraseInstEverywhere
        (phis.foldl (processPhi SE lid canIV phId hdrId anchor)
          (st, ([] : List Nat), false)).1.F) d
      exact absentFrom_eraseFold d _ _ hd2

/-- Instance of C8 on the concrete nest exF2: scanning the inner header's
PHIs `[i, j]` rewrites `j`; before the deletion the scan result has no
use of any dead PHI, and after `rewriteHeaderPhis` each dead PHI is both
unreferenced and gone. -/
theorem C8_dead_merge_points_unreferenced_and_deleted_witness :
    ((∀ PN ∈ ([exIIn, exJ] : List Inst), PN.id ∈ ([10, 20, 21] : List Nat)) ∧
     (∀ p ∈ ([10, 20, 21] : List Nat), p < 50) ∧
     SEOracleFreshOK exSE2 [10, 20, 21]) ∧
    ((∀ d ∈ (([exIIn, exJ] : List Inst).foldl
        (processPhi exSE2 200 (some 20) (some 1) 2 23)
        (⟨exF2, 50⟩, ([] : List Nat), false)).2.1,
      noRefs (([exIIn, exJ] : List Inst).foldl
        (processPhi exSE2 200 (some 20) (some 1) 2 23)
        (⟨exF2, 50⟩, ([] : List Nat), false)).1.F d) ∧
     (∀ d ∈ (rewriteHeaderPhis exSE2 200 (some 20) (some 1) 2 23
        [exIIn, exJ] ⟨exF2, 50⟩).2.1,
      noRefs (rewriteHeaderPhis exSE2 200 (some 20) (some 1) 2 23
        [exIIn, exJ] ⟨exF2, 50⟩).1.F d ∧
      absentFrom (rewriteHeaderPhis exSE2 200 (some 20) (some 1) 2 23
        [exIIn, exJ] ⟨exF2, 50⟩).1.F d)) :=
  ⟨⟨by decide, by decide, fun s f r hcon => Option.noConfusion hcon⟩,
   C8_dead_merge_points_unreferenced_and_deleted exSE2 200 (some 20) (some 1)
     2 23 [exIIn, exJ] ⟨exF2, 50⟩ [10, 20, 21] (by decide) (by decide)
     (fun s f r hcon => Option.noConfusion hcon)⟩

end LoopOpt
